import Mathlib

/-!
# Verification of the `configo` option registry

A shallow embedding of the `configo` Go library: typed value cells
(`strconv`/`time` parsing and rendering), the option registry
(`ConfigoSet`, `Configo`), the config-file codec, and the `Parse`
resolution driver, together with theorems settling the specification's
claims.

The repository contains two drifted copies of the registry; the complete
variant (the one whose `Parse` applies command-line flags first and then
skips file entries already present in `actual`) is the one embedded here,
following the specification's own choice of "the most complete variant".

Go strings are modelled as `List Char` (UTF-8 decoding is bijective, and
all comparisons the library performs are equality or lexicographic order,
which agree between byte-wise and codepoint-wise views).  Go `int`,
`int64` and `time.Duration` are modelled as `Int` with explicit two's
complement range bounds where they matter; `uint`/`uint64` as `Nat`
with bound `2^64`.  Panics are modelled as explicit outcome values;
file-system reads are an `Option (List Char)` input (`none` = the
config file does not exist); wall-clock time enters only as an opaque
timestamp string parameter.  The `float64` cell variant is the single
piece of the library outside the embedding (IEEE 754 semantics).
-/

/-- A Go string, modelled as its list of code points. -/
abbrev GoStr := List Char

/-- Whitespace recognised by Go's `unicode.IsSpace` for the Latin-1 range
(`'\t'`, `'\n'`, `'\v'`, `'\f'`, `'\r'`, `' '`, `U+0085`, `U+00A0`);
the further Unicode space code points never arise in any claim. -/
def isGoSpace (c : Char) : Bool :=
  c = ' ' || c = '\t' || c = '\n' || (c.toNat = 11) || (c.toNat = 12) ||
  c = '\r' || (c.toNat = 0x85) || (c.toNat = 0xA0)

/-- Go `strings.TrimSpace`: drop leading and trailing whitespace. -/
def trimSpace (s : GoStr) : GoStr :=
  ((s.dropWhile isGoSpace).reverse.dropWhile isGoSpace).reverse

/-- Go `strings.Split(s, "\n")`: the list of newline-separated lines
(the empty string yields one empty line, a trailing newline yields a
final empty line). -/
def splitLines : GoStr → List GoStr
  | [] => [[]]
  | c :: rest =>
    if c = '\n' then [] :: splitLines rest
    else
      match splitLines rest with
      | l :: ls => (c :: l) :: ls
      | [] => [[c]]

/-- Split `s` at the first occurrence of the non-empty separator `delim`:
`some (before, after)`, or `none` when `delim` does not occur in `s`. -/
def splitFirst (delim : GoStr) : GoStr → Option (GoStr × GoStr)
  | [] => none
  | c :: rest =>
    if delim.isPrefixOf (c :: rest) then some ([], (c :: rest).drop delim.length)
    else
      match splitFirst delim rest with
      | some (a, b) => some (c :: a, b)
      | none => none

/-- Go `strings.SplitN(s, delim, 2)`, presented as `some (fields[0], fields[1])`
when the result has two fields and `none` when it has fewer (so that a
subsequent `fields[1]` access is an index-out-of-range panic). -/
def splitN2 (delim s : GoStr) : Option (GoStr × GoStr) :=
  if delim = [] then
    match s with
    | [] => none
    | [_] => none
    | c :: rest => some ([c], rest)
  else splitFirst delim s

/-- Decimal digit test, Go `'0' <= c && c <= '9'`. -/
def isDigitCh (c : Char) : Bool := 48 ≤ c.toNat && c.toNat ≤ 57

/-- The numeric value of a decimal digit character, Go `c - '0'`. -/
def digitVal (c : Char) : Nat := c.toNat - 48

/-- Go `strconv`'s `lower(c) = c | ('x' - 'X')`. -/
def lowerCh (c : Char) : Char := Char.ofNat (c.toNat ||| 32)

/-- Big-endian decimal accumulation `x := 10*x + digit` over a digit run,
the common reading loop of Go's integer parsers. -/
def bigval (x : Nat) (ds : GoStr) : Nat :=
  ds.foldl (fun a c => 10 * a + digitVal c) x

/-- The decimal digit characters of `n`, most significant first, without
the `n = 0` special case (`[]` for `0`).  Go's `fmtInt`/`formatBits`
produce exactly this run by emitting `n % 10` digits from the right. -/
def natCharsCore (n : Nat) : GoStr :=
  ((Nat.digits 10 n).map Nat.digitChar).reverse

/-- The decimal rendering of a natural number (Go `fmt "%v"` on an
unsigned integer, `strconv.FormatUint(n, 10)`). -/
def natChars (n : Nat) : GoStr :=
  if n = 0 then ['0'] else natCharsCore n

/-- The decimal rendering of a signed integer (Go `fmt "%v"` on a signed
integer, `strconv.FormatInt(i, 10)`). -/
def intChars (i : Int) : GoStr :=
  if i < 0 then '-' :: natChars i.natAbs else natChars i.natAbs

/-- Result of Go `strconv.ParseUint`: the value, or a syntax error
(returned value `0`), or a range error (returned value `maxVal`). -/
inductive UintRes
  | ok (n : Nat)
  | syntaxE
  | rangeE
deriving DecidableEq, Repr

/-- The digit-consumption loop of Go `strconv.ParseUint`: underscores are
skipped (when `base0`), digits accumulate with the `cutoff`/`maxVal`
overflow checks, any other character is a syntax error. -/
def parseUintDigits (base cutoff maxVal : Nat) (base0 : Bool) : GoStr → Nat → UintRes
  | [], n => .ok n
  | c :: rest, n =>
    if c = '_' && base0 then parseUintDigits base cutoff maxVal base0 rest n
    else
      let d? : Option Nat :=
        if isDigitCh c then some (digitVal c)
        else if 97 ≤ (lowerCh c).toNat && (lowerCh c).toNat ≤ 122 then
          some ((lowerCh c).toNat - 97 + 10)
        else none
      match d? with
      | none => .syntaxE
      | some d =>
        if d ≥ base then .syntaxE
        else if n ≥ cutoff then .rangeE
        else if n * base + d > maxVal then .rangeE
        else parseUintDigits base cutoff maxVal base0 rest (n * base + d)

/-- The `saw`-state loop of Go `strconv`'s `underscoreOK` (states `'^'`
beginning, `'0'` digit or base prefix, `'_'` underscore, `'!'` other). -/
def undOKLoop (hex : Bool) : GoStr → Char → Bool
  | [], saw => saw ≠ '_'
  | c :: rest, saw =>
    if isDigitCh c || (hex && 97 ≤ (lowerCh c).toNat && (lowerCh c).toNat ≤ 102) then
      undOKLoop hex rest '0'
    else if c = '_' then
      if saw ≠ '0' then false else undOKLoop hex rest '_'
    else if saw = '_' then false
    else undOKLoop hex rest '!'

/-- Go `strconv`'s `underscoreOK`: underscores may appear only between a
digit (or base prefix) and a digit. -/
def underscoreOK (s : GoStr) : Bool :=
  let s1 : GoStr :=
    match s with
    | c :: r => if c = '-' || c = '+' then r else s
    | [] => s
  match s1 with
  | c0 :: c1 :: rest =>
    if c0 = '0' && (lowerCh c1 = 'b' || lowerCh c1 = 'o' || lowerCh c1 = 'x') then
      undOKLoop (lowerCh c1 = 'x') rest '0'
    else undOKLoop false s1 '^'
  | _ => undOKLoop false s1 '^'

/-- Go `strconv.ParseUint(s, 0, 64)`: empty-string check, base detection
from a `0b`/`0o`/`0x`/`0` prefix, the digit loop, and the trailing
`underscoreOK` well-formedness check. -/
def parseUint0 (s : GoStr) : UintRes :=
  if s = [] then .syntaxE
  else
    let p : Nat × GoStr :=
      match s with
      | c0 :: rest0 =>
        if c0 = '0' then
          match rest0 with
          | c2 :: rest =>
            if rest ≠ [] && lowerCh c2 = 'b' then (2, rest)
            else if rest ≠ [] && lowerCh c2 = 'o' then (8, rest)
            else if rest ≠ [] && lowerCh c2 = 'x' then (16, rest)
            else (8, c2 :: rest)
          | [] => (8, [])
        else (10, s)
      | [] => (10, s)
    let maxVal := 2 ^ 64 - 1
    match parseUintDigits p.1 (maxVal / p.1 + 1) maxVal true p.2 0 with
    | .ok n => if underscoreOK s then .ok n else .syntaxE
    | e => e

/-- Result of Go `strconv.ParseInt`: the value, a syntax error (returned
value `0`), or a range error carrying the clamped extreme the function
returns alongside the error. -/
inductive IntRes
  | ok (i : Int)
  | syntaxE
  | rangeE (i : Int)
deriving DecidableEq, Repr

/-- Go `strconv.ParseInt(s, 0, 64)`: strip the sign, parse the rest as
unsigned, clamp to the signed 64-bit range (range errors return the
maximum-magnitude integer of the appropriate sign). -/
def parseInt0 (s : GoStr) : IntRes :=
  if s = [] then .syntaxE
  else
    let q : Bool × GoStr :=
      match s with
      | c0 :: r =>
        if c0 = '+' then (false, r)
        else if c0 = '-' then (true, r)
        else (false, s)
      | [] => (false, s)
    let neg := q.1
    match parseUint0 q.2 with
    | .syntaxE => .syntaxE
    | r =>
      let un : Nat := match r with | .ok n => n | .rangeE => 2 ^ 64 - 1 | .syntaxE => 0
      let cutoff : Nat := 2 ^ 63
      if !neg && un ≥ cutoff then .rangeE ((cutoff : Int) - 1)
      else if neg && un > cutoff then .rangeE (-(cutoff : Int))
      else .ok (if neg then -(un : Int) else (un : Int))

/-- Go `strconv.ParseBool`: the fixed token sets for `true` and `false`;
anything else is a syntax error with returned value `false`. -/
def goParseBool (s : GoStr) : Bool × Bool :=
  if s = "1".data || s = "t".data || s = "T".data || s = "true".data ||
     s = "TRUE".data || s = "True".data then (true, true)
  else if s = "0".data || s = "f".data || s = "F".data || s = "false".data ||
     s = "FALSE".data || s = "False".data then (false, true)
  else (false, false)

/-- Left-pad a digit run with `'0'` to width `w`, then there is no padding
when the run is already that wide (the run of `fmtFrac`'s `prec` digits). -/
def padDigits (w : Nat) (ds : GoStr) : GoStr :=
  List.replicate (w - ds.length) '0' ++ ds

/-- Drop trailing `'0'` characters (Go `fmtFrac` skips trailing zeros when
printing a fraction from the least significant digit). -/
def dropTrailZeros (ds : GoStr) : GoStr :=
  (ds.reverse.dropWhile (fun c => c = '0')).reverse

/-- The fraction part emitted by Go `time`'s `fmtFrac(v, prec)`: the last
`prec` decimal digits of `v` with trailing zeros removed and a leading
`'.'`, or nothing when those digits are all zero. -/
def fracChars (v prec : Nat) : GoStr :=
  if v % 10 ^ prec = 0 then []
  else '.' :: dropTrailZeros (padDigits prec (natChars (v % 10 ^ prec)))

/-- The unsigned body of Go `time.Duration.String()` for `u` nanoseconds:
sub-second durations use `ns`/`µs`/`ms` with a trimmed fraction, others use
`h`/`m`/`s` with the seconds fraction trimmed to nanosecond precision. -/
def durBody (u : Nat) : GoStr :=
  if u < 10 ^ 9 then
    if u < 10 ^ 3 then natChars u ++ ['n', 's']
    else if u < 10 ^ 6 then natChars (u / 10 ^ 3) ++ fracChars u 3 ++ ['µ', 's']
    else natChars (u / 10 ^ 6) ++ fracChars u 6 ++ ['m', 's']
  else
    let secs := u / 10 ^ 9
    let tail := natChars (secs % 60) ++ fracChars u 9 ++ ['s']
    if secs / 60 > 0 then
      let tail2 := natChars (secs / 60 % 60) ++ 'm' :: tail
      if secs / 60 / 60 > 0 then natChars (secs / 60 / 60) ++ 'h' :: tail2 else tail2
    else tail

/-- Go `time.Duration.String()` on a duration of `d` nanoseconds
(`d` in the `int64` range): a sign, then the unsigned body. -/
def renderDuration (d : Int) : GoStr :=
  let u : Nat := d.natAbs
  if u = 0 then ['0', 's']
  else if d < 0 then '-' :: durBody u else durBody u

/-- The `leadingInt` of Go `time.ParseDuration`: consume leading decimal
digits into `x`, failing (`none`) when `x` would pass `2^63`. -/
def leadingIntD : GoStr → Nat → Option (Nat × GoStr)
  | [], x => some (x, [])
  | c :: rest, x =>
    if isDigitCh c then
      if x > 2 ^ 63 / 10 then none
      else if x * 10 + digitVal c > 2 ^ 63 then none
      else leadingIntD rest (x * 10 + digitVal c)
    else some (x, c :: rest)

/-- The `leadingFraction` of Go `time.ParseDuration`: consume leading
decimal digits into `x` while multiplying `scale` by ten, silently
ceasing to accumulate (but still consuming) once `x` would overflow.
Go tracks `scale` as a `float64` power of ten; it is modelled as the
same power of ten in `Nat`. -/
def leadingFrac : GoStr → Nat → Nat → Bool → Nat × Nat × GoStr
  | [], x, scale, _ => (x, scale, [])
  | c :: rest, x, scale, ovf =>
    if isDigitCh c then
      if ovf then leadingFrac rest x scale ovf
      else if x > (2 ^ 63 - 1) / 10 then leadingFrac rest x scale true
      else if x * 10 + digitVal c > 2 ^ 63 then leadingFrac rest x scale true
      else leadingFrac rest (x * 10 + digitVal c) (scale * 10) false
    else (x, scale, c :: rest)

/-- The unit table of Go `time.ParseDuration`, in nanoseconds. -/
def unitVal (u : GoStr) : Option Nat :=
  if u = ['n', 's'] then some 1
  else if u = ['u', 's'] then some 1000
  else if u = ['µ', 's'] then some 1000      -- U+00B5 micro sign
  else if u = ['μ', 's'] then some 1000      -- U+03BC Greek letter mu
  else if u = ['m', 's'] then some (10 ^ 6)
  else if u = ['s'] then some (10 ^ 9)
  else if u = ['m'] then some (60 * 10 ^ 9)
  else if u = ['h'] then some (3600 * 10 ^ 9)
  else none

/-- One `[0-9]*(\.[0-9]*)?unit` segment loop of Go `time.ParseDuration`,
accumulating nanoseconds into `d ≤ 2^63`; `fuel` bounds the iteration
count (each iteration consumes at least one character, so any
`fuel > s.length` is enough).  Go computes the fractional contribution
as `uint64(float64(f) * (float64(unit) / scale))`; it is modelled as
`f * unit / scale` in `Nat`, which coincides with Go's value whenever
`scale` divides `unit` — true of every string `Duration.String()`
produces, the only inputs any theorem below evaluates it on. -/
def parseDurLoop : Nat → GoStr → Nat → Option Nat
  | 0, _, _ => none
  | _ + 1, [], d => some d
  | fuel + 1, c :: s', d =>
    let s := c :: s'
    if ¬(c = '.' || isDigitCh c) then none
    else
      match leadingIntD s 0 with
      | none => none
      | some (v, s1) =>
        let pre := s1.length ≠ s.length
        let q : Nat × Nat × GoStr × Bool :=
          match s1 with
          | c1 :: s1' =>
            if c1 = '.' then
              let r := leadingFrac s1' 0 1 false
              (r.1, r.2.1, r.2.2, r.2.2.length ≠ s1'.length)
            else (0, 1, s1, false)
          | [] => (0, 1, s1, false)
        let f := q.1
        let scale := q.2.1
        let s2 := q.2.2.1
        let post := q.2.2.2
        if ¬pre && ¬post then none
        else
          let uchunk := s2.takeWhile (fun c => !(c = '.' || isDigitCh c))
          if uchunk = [] then none
          else
            match unitVal uchunk with
            | none => none
            | some unit =>
              if v > 2 ^ 63 / unit then none
              else
                let v1 := v * unit
                let v2 := if f > 0 then v1 + f * unit / scale else v1
                if f > 0 && v2 > 2 ^ 63 then none
                else if d + v2 > 2 ^ 63 then none
                else parseDurLoop fuel (s2.drop uchunk.length) (d + v2)

/-- Go `time.ParseDuration`: optional sign, the `"0"` special case, then
a sequence of number-unit segments; the negative range reaches `-2^63`
while the positive range stops at `2^63 - 1`. -/
def goParseDuration (s : GoStr) : Option Int :=
  let q : Bool × GoStr :=
    match s with
    | c0 :: r =>
      if c0 = '-' then (true, r)
      else if c0 = '+' then (false, r)
      else (false, s)
    | [] => (false, s)
  let neg := q.1
  let s1 := q.2
  if s1 = ['0'] then some 0
  else if s1 = [] then none
  else
    match parseDurLoop (s1.length + 1) s1 0 with
    | none => none
    | some d =>
      if neg then some (-(d : Int))
      else if d > 2 ^ 63 - 1 then none
      else some (d : Int)

/-- A typed value cell: the `flag.Value` implementations of the library
(`boolValue`, `intValue`, `int64Value`, `uintValue`, `uint64Value`,
`stringValue`, `durationValue`).  Go `int`/`uint` are 64-bit on the
library's targets; `float64Value` is outside the embedding (IEEE 754). -/
inductive CellValue
  | boolV (b : Bool)
  | intV (i : Int)
  | int64V (i : Int)
  | uintV (n : Nat)
  | uint64V (n : Nat)
  | stringV (s : GoStr)
  | durationV (d : Int)
deriving DecidableEq, Repr

/-- The error a cell's `Set` can report (the `strconv`/`time` error kinds). -/
inductive CellErr
  | syntaxE
  | rangeE
deriving DecidableEq, Repr

/-- The `String()` method of each cell variant: `%v` rendering for
bool/integers, the string itself, `Duration.String()` for durations. -/
def cellString : CellValue → GoStr
  | .boolV b => if b then "true".data else "false".data
  | .intV i => intChars i
  | .int64V i => intChars i
  | .uintV n => natChars n
  | .uint64V n => natChars n
  | .stringV s => s
  | .durationV d => renderDuration d

/-- The `Set(s)` method of each cell variant.  Faithful to the Go
pattern `v, err := strconv.ParseX(s); *cell = X(v); return err`: the
new cell value is written even when the conversion failed (the zero
value on a syntax error, the clamped extreme on a range error). -/
def cellSet : CellValue → GoStr → CellValue × Option CellErr
  | .boolV _, s => let r := goParseBool s; (.boolV r.1, if r.2 then none else some .syntaxE)
  | .intV _, s =>
    match parseInt0 s with
    | .ok i => (.intV i, none)
    | .syntaxE => (.intV 0, some .syntaxE)
    | .rangeE i => (.intV i, some .rangeE)
  | .int64V _, s =>
    match parseInt0 s with
    | .ok i => (.int64V i, none)
    | .syntaxE => (.int64V 0, some .syntaxE)
    | .rangeE i => (.int64V i, some .rangeE)
  | .uintV _, s =>
    match parseUint0 s with
    | .ok n => (.uintV n, none)
    | .syntaxE => (.uintV 0, some .syntaxE)
    | .rangeE => (.uintV (2 ^ 64 - 1), some .rangeE)
  | .uint64V _, s =>
    match parseUint0 s with
    | .ok n => (.uint64V n, none)
    | .syntaxE => (.uint64V 0, some .syntaxE)
    | .rangeE => (.uint64V (2 ^ 64 - 1), some .rangeE)
  | .stringV _, s => (.stringV s, none)
  | .durationV _, s =>
    match goParseDuration s with
    | some d => (.durationV d, none)
    | none => (.durationV 0, some .syntaxE)

/-- A registered configuration item (`Configo` in the source): name,
usage text, current value cell, the default-value text snapshot, and
the two capability flags. -/
structure Configo where
  Name : GoStr
  Usage : GoStr
  Value : CellValue
  DefaultValue : GoStr
  IsFlag : Bool
  IsConfig : Bool
deriving DecidableEq, Repr

/-- Association-list lookup, the read `m[name]` of a Go map modelled as a
list of key/value pairs with distinct keys. -/
def lookupA (m : List (GoStr × Configo)) (name : GoStr) : Option Configo :=
  match m with
  | [] => none
  | p :: rest => if p.1 = name then some p.2 else lookupA rest name

/-- Association-list store, the write `m[name] = v` of a Go map: replace
the existing binding in place, or append a new one. -/
def setA (m : List (GoStr × Configo)) (name : GoStr) (v : Configo) : List (GoStr × Configo) :=
  match m with
  | [] => [(name, v)]
  | p :: rest => if p.1 = name then (name, v) :: rest else p :: setA rest name v

/-- The set of registered configuration options (`ConfigoSet` in the
source).  `formal` is the authoritative name-to-item map.  In Go,
`actual` maps names to the same `*Configo` pointers stored in `formal`
(`Set` inserts `c.formal[name]` itself), so `actual` is modelled as the
set of names that received a value, read through `formal`. -/
structure ConfigoSet where
  name : GoStr
  parsed : Bool
  actual : List GoStr
  formal : List (GoStr × Configo)
  path : GoStr
  delimiter : GoStr
deriving DecidableEq, Repr

/-- Go `NewConfigoSet(name, errorHandling, path)` (the error-handling
mode only parameterises the external `flag` package and is dropped). -/
def NewConfigoSet (name path : GoStr) : ConfigoSet :=
  { name := name, parsed := false, actual := [], formal := [],
    path := path, delimiter := "=".data }

/-- Go `ConfigoSet.Lookup`: the `formal` map read, `nil` as `none`. -/
def ConfigoSet.Lookup (c : ConfigoSet) (name : GoStr) : Option Configo :=
  lookupA c.formal name

/-- Go `ConfigoSet.Var`: build the item (snapshotting
`DefaultValue = value.String()`), panic if the name is already
registered, otherwise insert it into `formal`.  The Go panic (the
only non-returning outcome) is the `Except.error` case. -/
def ConfigoSet.Var (c : ConfigoSet) (value : CellValue) (name usage : GoStr)
    (isFlag isConfig : Bool) : Except GoStr ConfigoSet :=
  let config : Configo :=
    { Name := name, Usage := usage, Value := value,
      DefaultValue := cellString value, IsFlag := isFlag, IsConfig := isConfig }
  match lookupA c.formal name with
  | some _ => .error (c.name ++ " flag redefined: ".data ++ name)
  | none => .ok { c with formal := setA c.formal name config }

/-- The error returned by `ConfigoSet.Set`. -/
inductive SetErr
  | noSuchItem (name : GoStr)
  | valueErr (e : CellErr)
deriving DecidableEq, Repr

/-- Go `ConfigoSet.Set`: fail when the name is unregistered; otherwise
run the cell's `Set` (which always overwrites the cell), and record the
name in `actual` only when the conversion succeeded. -/
def ConfigoSet.Set (c : ConfigoSet) (name value : GoStr) : ConfigoSet × Option SetErr :=
  match lookupA c.formal name with
  | none => (c, some (.noSuchItem name))
  | some config =>
    let r := cellSet config.Value value
    let c1 := { c with formal := setA c.formal name { config with Value := r.1 } }
    match r.2 with
    | some e => (c1, some (.valueErr e))
    | none =>
      (if name ∈ c1.actual then c1
       else { c1 with actual := c1.actual ++ [name] }, none)

/-- Go `sortConfigs`: collect the map's keys, sort them
lexicographically, and read the items back in that order.  (Go uses
`sort.StringSlice`; the result is the unique sorted arrangement of the
distinct keys, so any correct sort models it.) -/
def sortConfigs (m : List (GoStr × Configo)) : List Configo :=
  let sorted := List.insertionSort (· ≤ ·) (m.map Prod.fst)
  sorted.map (fun n => (lookupA m n).getD
    { Name := [], Usage := [], Value := .stringV [], DefaultValue := [],
      IsFlag := false, IsConfig := false })

/-- Go `ConfigoSet.VisitAll`: every registered item, in lexicographic
name order. -/
def ConfigoSet.VisitAll (c : ConfigoSet) : List Configo :=
  sortConfigs c.formal

/-- Go `ConfigoSet.Visit`: the items that received a value, in
lexicographic name order (`actual` holds the `formal` entries). -/
def ConfigoSet.Visit (c : ConfigoSet) : List Configo :=
  sortConfigs (c.actual.filterMap (fun n => (lookupA c.formal n).map (fun cfg => (n, cfg))))

/-- The classification of one raw config-file line by the body of the
file-reading loop in `Parse`: skipped (blank or comment after
trimming), malformed (the delimiter is absent, so `fields` has one
element and the subsequent `fields[1]` access panics), or a semantic
entry with both parts trimmed. -/
inductive LineClass
  | skip
  | malformed
  | entry (name value : GoStr)
deriving DecidableEq, Repr

/-- Classify one line exactly as the loop body of `Parse` does: trim,
skip blank and `#`-led lines, split on the first delimiter occurrence,
trim both fields. -/
def classifyLine (delim line : GoStr) : LineClass :=
  let l := trimSpace line
  if l.length > 0 && ¬(l.head? = some '#') then
    match splitN2 delim l with
    | none => .malformed
    | some (f0, f1) => .entry (trimSpace f0) (trimSpace f1)
  else .skip

/-- How a run of the resolution driver ends: a normal return, the
index-out-of-range runtime panic raised by `fields[1]` on a
delimiter-less line, or the explicit
`panic(errors.New("unknown configuration item"))`. -/
inductive GoOutcome
  | ok
  | indexOutOfRange
  | unknownItemPanic
deriving DecidableEq, Repr

/-- The config-file loop of `Parse` over the split lines: on each
semantic entry, skip names already in `actual` (the command-line
precedence check), panic on unregistered names, and otherwise apply
`Set`, discarding its error.  Returns the final registry, the trace of
`(name, value)` pairs the loop passed to `Set`, and the outcome; a
panic aborts the remainder of the loop. -/
def runFileLines (c : ConfigoSet) : List GoStr → ConfigoSet × List (GoStr × GoStr) × GoOutcome
  | [] => (c, [], .ok)
  | line :: rest =>
    match classifyLine c.delimiter line with
    | .skip => runFileLines c rest
    | .malformed => (c, [], .indexOutOfRange)
    | .entry name value =>
      if name ∈ c.actual then runFileLines c rest
      else
        match lookupA c.formal name with
        | none => (c, [], .unknownItemPanic)
        | some _ =>
          let c1 := (c.Set name value).1
          let r := runFileLines c1 rest
          (r.1, (name, value) :: r.2.1, r.2.2)

/-- Apply a batch of `(name, value)` pairs through `Set`, discarding the
returned errors — the shape of the `flag.Visit(func(f){c.Set(...)})`
command-line phase of `Parse`. -/
def applySets (c : ConfigoSet) (pairs : List (GoStr × GoStr)) : ConfigoSet :=
  pairs.foldl (fun acc p => (acc.Set p.1 p.2).1) c

/-- The semantic body `WriteDefaultConfig` emits for one item:
`"# <usage>\n<name><delimiter><defaultText>\n\n"`. -/
def encodeItem (delim : GoStr) (cfg : Configo) : GoStr :=
  '#' :: ' ' :: cfg.Usage ++ '\n' :: cfg.Name ++ delim ++ cfg.DefaultValue ++ ['\n', '\n']

/-- Go `ConfigoSet.WriteDefaultConfig`, as the text written to the file:
the two header comment lines (program name, then the timestamp — wall
clock time enters only through the opaque `stamp` parameter), then,
for every formal item with `IsConfig` in lexicographic name order, its
usage comment and `name<delimiter>defaultText` line. -/
def ConfigoSet.WriteDefaultConfig (c : ConfigoSet) (stamp : GoStr) : GoStr :=
  "# Default config file for ".data ++ c.name ++ '\n' ::
  "# Written on ".data ++ stamp ++ '\n' :: '\n' ::
  (c.VisitAll.filter (fun cfg => cfg.IsConfig)).foldr
    (fun cfg acc => encodeItem c.delimiter cfg ++ acc) []

/-- The result of a run of `ConfigoSet.Parse`: the final registry, the
outcome (return or panic), the trace of file-sourced `Set` calls,
whether the config file was read, and whether a default config file
was written. -/
structure ParseResult where
  set : ConfigoSet
  outcome : GoOutcome
  fileSets : List (GoStr × GoStr)
  readFile : Bool
  wroteDefault : Bool
deriving DecidableEq, Repr

/-- Go `ConfigoSet.Parse` of the complete variant: apply the
explicitly-supplied command-line flags through `Set` (errors
discarded), then — unless a previous run already set `parsed` — either
bootstrap a default config file when none exists (`file = none`), or
read and apply the file's entries, skipping any name already in
`actual`.  `flags` is what the external `flag` package's `Visit`
yields; `file` is the content of the file at `c.path`, or `none` when
`os.Stat` reports it absent. -/
def ConfigoSet.Parse (c : ConfigoSet) (flags : List (GoStr × GoStr))
    (file : Option GoStr) : ParseResult :=
  let c1 := applySets c flags
  match file with
  | none =>
    { set := { c1 with parsed := true }, outcome := .ok, fileSets := [],
      readFile := false, wroteDefault := true }
  | some content =>
    if c1.parsed then
      { set := c1, outcome := .ok, fileSets := [], readFile := false,
        wroteDefault := false }
    else
      let r := runFileLines c1 (splitLines content)
      match r.2.2 with
      | .ok =>
        { set := { r.1 with parsed := true }, outcome := .ok, fileSets := r.2.1,
          readFile := true, wroteDefault := false }
      | o =>
        { set := r.1, outcome := o, fileSets := r.2.1, readFile := true,
          wroteDefault := false }

/-- The semantic `(name, value)` pairs of a list of config-file lines,
each classified as the `Parse` loop body does, or `none` as soon as a
non-blank non-comment line lacks the delimiter. -/
def decodeLinesPairs (delim : GoStr) (lines : List GoStr) : Option (List (GoStr × GoStr)) :=
  lines.foldr
    (fun line acc =>
      match classifyLine delim line, acc with
      | .skip, a => a
      | .malformed, _ => none
      | .entry n v, some a => some ((n, v) :: a)
      | .entry _ _, none => none)
    (some [])

/-- The pure entry extraction of the Decode step over a whole file. -/
def decodePairs (delim : GoStr) (content : GoStr) : Option (List (GoStr × GoStr)) :=
  decodeLinesPairs delim (splitLines content)

/-- The representable range of each cell variant: the two's-complement
64-bit window for the signed variants and the duration, `[0, 2^64)` for
the unsigned ones; booleans and strings are unconstrained. -/
def CellValue.InRange : CellValue → Prop
  | .boolV _ => True
  | .intV i => -(2 ^ 63) ≤ i ∧ i < 2 ^ 63
  | .int64V i => -(2 ^ 63) ≤ i ∧ i < 2 ^ 63
  | .uintV n => n < 2 ^ 64
  | .uint64V n => n < 2 ^ 64
  | .stringV _ => True
  | .durationV d => -(2 ^ 63) ≤ d ∧ d < 2 ^ 63

/-- The default-value text the registry holds for `name`, if registered. -/
def defaultTextOf (c : ConfigoSet) (name : GoStr) : Option GoStr :=
  (lookupA c.formal name).map Configo.DefaultValue

/-- The semantic `(name, defaultText)` entries of the registry's
config-capable items, in the order `WriteDefaultConfig` emits them. -/
def configEntries (c : ConfigoSet) : List (GoStr × GoStr) :=
  (c.VisitAll.filter (fun cfg => cfg.IsConfig)).map
    (fun cfg => (cfg.Name, cfg.DefaultValue))

/-- A sample registry: one string option `species` with default
`gopher`, settable from both sources (the spec's bootstrap scenario). -/
def speciesSet : ConfigoSet :=
  { name := "example".data, parsed := false, actual := [],
    formal := [("species".data,
      { Name := "species".data, Usage := "the species we are studying".data,
        Value := .stringV "gopher".data, DefaultValue := "gopher".data,
        IsFlag := true, IsConfig := true })],
    path := ".examplerc".data, delimiter := "=".data }

/-- A sample registry: one int option `n` with default `5`. -/
def intSet : ConfigoSet :=
  { name := "p".data, parsed := false, actual := [],
    formal := [("n".data,
      { Name := "n".data, Usage := "num".data, Value := .intV 5,
        DefaultValue := ['5'], IsFlag := true, IsConfig := true })],
    path := ".prc".data, delimiter := "=".data }

/-- A sample registry whose single config item has a default value with
leading whitespace (reachable by registering a string option with
initial value `" x"`). -/
def paddedSet : ConfigoSet :=
  { name := "p".data, parsed := false, actual := [],
    formal := [("opt".data,
      { Name := "opt".data, Usage := "an option".data,
        Value := .stringV " x".data, DefaultValue := " x".data,
        IsFlag := false, IsConfig := true })],
    path := ".prc".data, delimiter := "=".data }

theorem lookupA_setA_self (m : List (GoStr × Configo)) (n : GoStr) (v : Configo) :
    lookupA (setA m n v) n = some v := by
  induction m with
  | nil => simp [setA, lookupA]
  | cons p rest ih =>
    by_cases h : p.1 = n
    · simp [setA, h, lookupA]
    · simp [setA, h, lookupA, ih]

theorem lookupA_setA_ne (m : List (GoStr × Configo)) (n n' : GoStr) (v : Configo)
    (h : n' ≠ n) : lookupA (setA m n v) n' = lookupA m n' := by
  have h2 : ¬(n = n') := fun h' => h h'.symm
  induction m with
  | nil => simp [setA, lookupA, h2]
  | cons p rest ih =>
    by_cases hp : p.1 = n
    · subst hp
      simp [setA, lookupA, h2]
    · simp only [setA, hp, if_false, lookupA]
      by_cases hp' : p.1 = n'
      · simp [hp']
      · simp [hp', ih]

theorem keys_setA_mem (m : List (GoStr × Configo)) (n : GoStr) (v : Configo)
    (h : (lookupA m n).isSome) : (setA m n v).map Prod.fst = m.map Prod.fst := by
  induction m with
  | nil => simp [lookupA] at h
  | cons p rest ih =>
    by_cases hp : p.1 = n
    · simp [setA, hp]
    · simp only [lookupA, hp, if_false] at h
      simp [setA, hp, ih h]

theorem keys_setA_new (m : List (GoStr × Configo)) (n : GoStr) (v : Configo)
    (h : lookupA m n = none) : (setA m n v).map Prod.fst = m.map Prod.fst ++ [n] := by
  induction m with
  | nil => simp [setA]
  | cons p rest ih =>
    by_cases hp : p.1 = n
    · simp [lookupA, hp] at h
    · simp only [lookupA, hp, if_false] at h
      simp [setA, hp, ih h]

theorem Set_formal_keys (c : ConfigoSet) (n v : GoStr) :
    (c.Set n v).1.formal.map Prod.fst = c.formal.map Prod.fst := by
  unfold ConfigoSet.Set
  split
  · rfl
  · next cfg heq =>
    have hk := keys_setA_mem c.formal n
      { cfg with Value := (cellSet cfg.Value v).1 } (by simp [heq])
    dsimp only
    split
    · exact hk
    · split <;> exact hk

theorem Set_lookup_ne (c : ConfigoSet) (n v : GoStr) (m : GoStr) (h : m ≠ n) :
    lookupA (c.Set n v).1.formal m = lookupA c.formal m := by
  unfold ConfigoSet.Set
  split
  · rfl
  · next cfg heq =>
    have hk := lookupA_setA_ne c.formal n m { cfg with Value := (cellSet cfg.Value v).1 } h
    dsimp only
    split
    · exact hk
    · split <;> exact hk

theorem Set_lookup_self (c : ConfigoSet) (n v : GoStr) (cfg : Configo)
    (h : lookupA c.formal n = some cfg) :
    lookupA (c.Set n v).1.formal n = some { cfg with Value := (cellSet cfg.Value v).1 } := by
  unfold ConfigoSet.Set
  split
  · next heq => rw [h] at heq; cases heq
  · next cfg' heq =>
    rw [h] at heq
    injection heq with heq'
    subst heq'
    dsimp only
    split
    · exact lookupA_setA_self ..
    · split <;> exact lookupA_setA_self ..

theorem Set_actual_mono (c : ConfigoSet) (n v : GoStr) (m : GoStr) (h : m ∈ c.actual) :
    m ∈ (c.Set n v).1.actual := by
  unfold ConfigoSet.Set
  split
  · exact h
  · dsimp only
    split
    · exact h
    · split
      · exact h
      · exact List.mem_append_left _ h

theorem Set_parsed (c : ConfigoSet) (n v : GoStr) : (c.Set n v).1.parsed = c.parsed := by
  unfold ConfigoSet.Set
  split
  · rfl
  · dsimp only
    split
    · rfl
    · split <;> rfl

theorem Set_delimiter (c : ConfigoSet) (n v : GoStr) :
    (c.Set n v).1.delimiter = c.delimiter := by
  unfold ConfigoSet.Set
  split
  · rfl
  · dsimp only
    split
    · rfl
    · split <;> rfl

theorem Set_default (c : ConfigoSet) (n v : GoStr) (m : GoStr) :
    defaultTextOf (c.Set n v).1 m = defaultTextOf c m := by
  by_cases hm : m = n
  · subst hm
    unfold defaultTextOf
    cases h : lookupA c.formal m with
    | none =>
      unfold ConfigoSet.Set
      rw [h]
      simp [h]
    | some cfg => simp [Set_lookup_self c m v cfg h, h]
  · unfold defaultTextOf
    rw [Set_lookup_ne c n v m hm]

theorem Set_unknown (c : ConfigoSet) (n v : GoStr) (h : lookupA c.formal n = none) :
    c.Set n v = (c, some (.noSuchItem n)) := by
  unfold ConfigoSet.Set
  rw [h]

theorem Set_fail (c : ConfigoSet) (n v : GoStr) (cfg : Configo) (e : CellErr)
    (h : lookupA c.formal n = some cfg) (he : (cellSet cfg.Value v).2 = some e) :
    c.Set n v = ({ c with formal := setA c.formal n { cfg with Value := (cellSet cfg.Value v).1 } }, some (.valueErr e)) := by
  unfold ConfigoSet.Set
  rw [h]
  simp only [he]

theorem Set_ok (c : ConfigoSet) (n v : GoStr) (cfg : Configo)
    (h : lookupA c.formal n = some cfg) (he : (cellSet cfg.Value v).2 = none) :
    c.Set n v =
      (if n ∈ c.actual then { c with formal := setA c.formal n { cfg with Value := (cellSet cfg.Value v).1 } }
       else { c with formal := setA c.formal n { cfg with Value := (cellSet cfg.Value v).1 }, actual := c.actual ++ [n] },
       none) := by
  unfold ConfigoSet.Set
  rw [h]
  simp only [he]

theorem Set_actual_self (c : ConfigoSet) (n v : GoStr) (cfg : Configo)
    (h : lookupA c.formal n = some cfg) (he : (cellSet cfg.Value v).2 = none) :
    n ∈ (c.Set n v).1.actual := by
  rw [Set_ok c n v cfg h he]
  by_cases hn : n ∈ c.actual
  · simp [hn]
  · simp [hn]

theorem applySets_default (sets : List (GoStr × GoStr)) (c : ConfigoSet) (m : GoStr) :
    defaultTextOf (applySets c sets) m = defaultTextOf c m := by
  induction sets generalizing c with
  | nil => rfl
  | cons p rest ih =>
    show defaultTextOf (applySets (c.Set p.1 p.2).1 rest) m = _
    rw [ih, Set_default]

theorem applySets_formal_keys (sets : List (GoStr × GoStr)) (c : ConfigoSet) :
    (applySets c sets).formal.map Prod.fst = c.formal.map Prod.fst := by
  induction sets generalizing c with
  | nil => rfl
  | cons p rest ih =>
    show (applySets (c.Set p.1 p.2).1 rest).formal.map Prod.fst = _
    rw [ih, Set_formal_keys]

theorem applySets_parsed (sets : List (GoStr × GoStr)) (c : ConfigoSet) :
    (applySets c sets).parsed = c.parsed := by
  induction sets generalizing c with
  | nil => rfl
  | cons p rest ih =>
    show (applySets (c.Set p.1 p.2).1 rest).parsed = _
    rw [ih, Set_parsed]

theorem applySets_delimiter (sets : List (GoStr × GoStr)) (c : ConfigoSet) :
    (applySets c sets).delimiter = c.delimiter := by
  induction sets generalizing c with
  | nil => rfl
  | cons p rest ih =>
    show (applySets (c.Set p.1 p.2).1 rest).delimiter = _
    rw [ih, Set_delimiter]

theorem applySets_actual_mono (sets : List (GoStr × GoStr)) (c : ConfigoSet) (m : GoStr)
    (h : m ∈ c.actual) : m ∈ (applySets c sets).actual := by
  induction sets generalizing c with
  | nil => exact h
  | cons p rest ih =>
    exact ih (c.Set p.1 p.2).1 (Set_actual_mono c p.1 p.2 m h)

/-- C4: registering a name already present in `formal` always aborts with
the duplicate-registration panic (`Except.error` in the model), whatever
the second registration's value, usage text or capability flags are;
registering a fresh name never aborts, and inserts into `formal` the
descriptor with the given fields and the rendered initial value as its
default text, leaving every other binding, the `actual` set, and the
`parsed` flag unchanged. -/
theorem C4_registration_uniqueness (c : ConfigoSet) (value : CellValue)
    (name usage : GoStr) (isFlag isConfig : Bool) :
    ((lookupA c.formal name).isSome →
      c.Var value name usage isFlag isConfig =
        .error (c.name ++ " flag redefined: ".data ++ name)) ∧
    (lookupA c.formal name = none →
      ∃ c', c.Var value name usage isFlag isConfig = .ok c' ∧
        lookupA c'.formal name = some
          { Name := name, Usage := usage, Value := value,
            DefaultValue := cellString value, IsFlag := isFlag, IsConfig := isConfig } ∧
        (∀ m, m ≠ name → lookupA c'.formal m = lookupA c.formal m) ∧
        c'.actual = c.actual ∧ c'.parsed = c.parsed) := by
  constructor
  · intro h
    unfold ConfigoSet.Var
    cases hl : lookupA c.formal name with
    | none => rw [hl] at h; cases h
    | some cfg => rfl
  · intro h
    unfold ConfigoSet.Var
    rw [h]
    refine ⟨_, rfl, lookupA_setA_self .., fun m hm => lookupA_setA_ne _ _ _ _ hm, rfl, rfl⟩

/-- Witness for C4 at a concrete registry: re-registering `species`
aborts, registering the fresh name `color` succeeds and inserts the
descriptor. -/
theorem C4_registration_uniqueness_witness :
    speciesSet.Var (.boolV true) "species".data [] false false =
      .error (speciesSet.name ++ " flag redefined: ".data ++ "species".data) ∧
    ∃ c', speciesSet.Var (.stringV "red".data) "color".data "a color".data true true = .ok c' ∧
      lookupA c'.formal "color".data = some
        { Name := "color".data, Usage := "a color".data, Value := .stringV "red".data,
          DefaultValue := cellString (.stringV "red".data), IsFlag := true, IsConfig := true } ∧
      (∀ m, m ≠ "color".data → lookupA c'.formal m = lookupA speciesSet.formal m) ∧
      c'.actual = speciesSet.actual ∧ c'.parsed = speciesSet.parsed :=
  ⟨(C4_registration_uniqueness speciesSet (.boolV true) "species".data [] false false).1
      (by decide),
   (C4_registration_uniqueness speciesSet (.stringV "red".data) "color".data
      "a color".data true true).2 (by decide)⟩

/-- C9: an item's default-value text is snapshotted at registration as
the rendering of the initial value, and no later batch of `Set` calls
(successful or failing) changes any item's default-value text. -/
theorem C9_default_frozen (c : ConfigoSet) (value : CellValue) (name usage : GoStr)
    (isFlag isConfig : Bool) (c' : ConfigoSet)
    (h : c.Var value name usage isFlag isConfig = .ok c')
    (sets : List (GoStr × GoStr)) :
    defaultTextOf c' name = some (cellString value) ∧
    ∀ m, defaultTextOf (applySets c' sets) m = defaultTextOf c' m := by
  constructor
  · unfold ConfigoSet.Var at h
    cases hl : lookupA c.formal name with
    | none =>
      rw [hl] at h
      injection h with h'
      subst h'
      unfold defaultTextOf
      rw [lookupA_setA_self]
      rfl
    | some cfg => rw [hl] at h; cases h
  · intro m
    exact applySets_default sets c' m

/-- Witness for C9: the `species` registration snapshots `gopher`, and a
batch of `Set` calls (one successful overwrite, one failure) leaves the
default text unchanged. -/
theorem C9_default_frozen_witness :
    defaultTextOf speciesSet "species".data = some (cellString (.stringV "gopher".data)) ∧
    defaultTextOf (applySets speciesSet [("species".data, "mole".data)]) "species".data =
      defaultTextOf speciesSet "species".data :=
  ⟨(C9_default_frozen (NewConfigoSet "example".data ".examplerc".data)
      (.stringV "gopher".data) "species".data "the species we are studying".data
      true true speciesSet rfl []).1,
   (C9_default_frozen (NewConfigoSet "example".data ".examplerc".data)
      (.stringV "gopher".data) "species".data "the species we are studying".data
      true true speciesSet rfl [("species".data, "mole".data)]).2 "species".data⟩

/-- Counterexample to C10 as stated: `Set` on the int option `n` with the
overflowing text `99999999999999999999` fails, yet the cell is left
holding the clamped extreme `2^63 - 1` of `strconv.ParseInt`'s range
error — not the variant's zero value `0` that the claim asserts. -/
theorem C10_counterexample :
    (intSet.Set "n".data "99999999999999999999".data).2 = some (.valueErr .rangeE) ∧
    lookupA (intSet.Set "n".data "99999999999999999999".data).1.formal "n".data =
      some { Name := "n".data, Usage := "num".data, Value := .intV (2 ^ 63 - 1),
             DefaultValue := ['5'], IsFlag := true, IsConfig := true } ∧
    CellValue.intV (2 ^ 63 - 1) ≠ CellValue.intV 0 := by
  refine ⟨by decide, by decide, by decide⟩

/-- C10 (amended): when `Set` is given a registered name but a text the
item's variant cannot convert, it returns the conversion error and does
not add the name to `actual`, but the value cell has already been
overwritten with the result of the failed conversion — the variant's
zero value on a syntax error, the clamped extreme on a range error —
so a failing `Set` is not atomic with respect to the stored value. -/
theorem C10_set_not_atomic (c : ConfigoSet) (name text : GoStr) (cfg : Configo)
    (e : CellErr) (h : lookupA c.formal name = some cfg)
    (he : (cellSet cfg.Value text).2 = some e) :
    (c.Set name text).2 = some (.valueErr e) ∧
    (c.Set name text).1.actual = c.actual ∧
    lookupA (c.Set name text).1.formal name =
      some { cfg with Value := (cellSet cfg.Value text).1 } := by
  rw [Set_fail c name text cfg e h he]
  exact ⟨rfl, rfl, lookupA_setA_self ..⟩

/-- Witness for C10's amended claim: the syntax-failing `Set` of `abc`
into the int option returns the error, adds nothing to `actual`, and
leaves the cell overwritten with `0`. -/
theorem C10_set_not_atomic_witness :
    (intSet.Set "n".data "abc".data).2 = some (.valueErr .syntaxE) ∧
    (intSet.Set "n".data "abc".data).1.actual = intSet.actual ∧
    lookupA (intSet.Set "n".data "abc".data).1.formal "n".data =
      some { Name := "n".data, Usage := "num".data,
             Value := (cellSet (.intV 5) "abc".data).1,
             DefaultValue := ['5'], IsFlag := true, IsConfig := true } :=
  C10_set_not_atomic intSet "n".data "abc".data
    { Name := "n".data, Usage := "num".data, Value := .intV 5,
      DefaultValue := ['5'], IsFlag := true, IsConfig := true }
    .syntaxE (by decide) (by decide)

theorem runFileLines_formal_keys (lines : List GoStr) (c : ConfigoSet) :
    (runFileLines c lines).1.formal.map Prod.fst = c.formal.map Prod.fst := by
  induction lines generalizing c with
  | nil => rfl
  | cons line rest ih =>
    unfold runFileLines
    split
    · exact ih c
    · rfl
    · next n v heq =>
      split
      · exact ih c
      · split
        · rfl
        · dsimp only
          rw [ih, Set_formal_keys]

theorem runFileLines_skips (lines : List GoStr) (c : ConfigoSet) (name : GoStr)
    (h : name ∈ c.actual) :
    (∀ v, (name, v) ∉ (runFileLines c lines).2.1) ∧
    lookupA (runFileLines c lines).1.formal name = lookupA c.formal name ∧
    name ∈ (runFileLines c lines).1.actual := by
  induction lines generalizing c with
  | nil => exact ⟨fun v hv => List.not_mem_nil _ hv, rfl, h⟩
  | cons line rest ih =>
    unfold runFileLines
    split
    · exact ih c h
    · exact ⟨fun v hv => List.not_mem_nil _ hv, rfl, h⟩
    · next n v heq =>
      split
      · exact ih c h
      · next hn =>
        have hne : n ≠ name := fun he => hn (he ▸ h)
        split
        · exact ⟨fun v hv => List.not_mem_nil _ hv, rfl, h⟩
        · dsimp only
          have hm := Set_actual_mono c n v name h
          obtain ⟨tr, hl, ha⟩ := ih (c.Set n v).1 hm
          refine ⟨?_, ?_, ha⟩
          · intro v' hv'
            rcases List.mem_cons.mp hv' with he | he
            · exact hne (congrArg Prod.fst he).symm
            · exact tr v' he
          · rw [hl, Set_lookup_ne c n v name (fun he => hne he.symm)]

/-- Counterexample to C2 as stated: a config-file entry with the
unregistered name `color` makes `Parse` end in the
`unknown configuration item` panic, not in a recoverable returned
error. -/
theorem C2_counterexample :
    (speciesSet.Parse [] (some "color=red\n".data)).outcome = .unknownItemPanic ∧
    GoOutcome.unknownItemPanic ≠ GoOutcome.ok := by
  refine ⟨by decide, by decide⟩

/-- C2 (amended): a never-registered name is always rejected and never
silently creates an option — `Parse` leaves the set of registered names
unchanged, and `Set` on an unknown name returns a recoverable error
with the registry untouched — but for a config-file entry the rejection
is the `unknown configuration item` panic that aborts `Parse`, not a
returned error. -/
theorem C2_unknown_rejection (c : ConfigoSet) (flags : List (GoStr × GoStr))
    (file : Option GoStr) (n v : GoStr) :
    ((c.Parse flags file).set.formal.map Prod.fst = c.formal.map Prod.fst) ∧
    (lookupA c.formal n = none → c.Set n v = (c, some (.noSuchItem n))) ∧
    (∀ line rest, classifyLine c.delimiter line = .entry n v → n ∉ c.actual →
      lookupA c.formal n = none →
      runFileLines c (line :: rest) = (c, [], .unknownItemPanic)) := by
  refine ⟨?_, fun h => Set_unknown c n v h, ?_⟩
  · unfold ConfigoSet.Parse
    cases file with
    | none => exact applySets_formal_keys flags c
    | some content =>
      dsimp only
      split
      · exact applySets_formal_keys flags c
      · split <;>
          · dsimp only
            rw [runFileLines_formal_keys, applySets_formal_keys]
  · intro line rest hcl hn hl
    unfold runFileLines
    rw [hcl]
    simp [hn, hl]

/-- Witness for C2's amended claim at a concrete registry: `Parse` over a
file naming the unregistered `color` preserves the registered-name set,
`Set` on `color` returns the unknown-option error, and the file loop
panics on the `color=red` line. -/
theorem C2_unknown_rejection_witness :
    ((speciesSet.Parse [] (some "color=red\n".data)).set.formal.map Prod.fst =
      speciesSet.formal.map Prod.fst) ∧
    (speciesSet.Set "color".data "red".data =
      (speciesSet, some (.noSuchItem "color".data))) ∧
    (runFileLines speciesSet ["color=red".data, ([] : GoStr)] =
      (speciesSet, [], .unknownItemPanic)) := by
  refine ⟨(C2_unknown_rejection speciesSet [] (some "color=red\n".data)
      "color".data "red".data).1,
    (C2_unknown_rejection speciesSet [] (some "color=red\n".data)
      "color".data "red".data).2.1 (by decide),
    (C2_unknown_rejection speciesSet [] (some "color=red\n".data)
      "color".data "red".data).2.2 "color=red".data [([] : GoStr)] (by decide)
      (by decide) (by decide)⟩

/-- C3: the code constructs the malformed-line error for a
delimiter-less config line but discards it, and the following
`fields[1]` access raises an index-out-of-range runtime panic, so
`Parse` aborts instead of returning the `MalformedLine` error the
specification describes — evaluated here at the failing input
`species gopher` under delimiter `=`. -/
theorem C3_malformed_line_panics :
    classifyLine "=".data "species gopher".data = .malformed ∧
    (speciesSet.Parse [] (some "species gopher".data)).outcome = .indexOutOfRange := by
  refine ⟨by decide, by decide⟩

/-- C5: `Parse` marks the registry parsed on every completed (non-panic)
run — whether the file was missing and bootstrapped or present and
loaded — and once `parsed` is true a further `Parse` neither re-reads
the configuration file nor applies any file-sourced `Set` call, so the
flag moves from `false` to `true` exactly once per registry lifetime. -/
theorem C5_parsed_once (c : ConfigoSet) (flags : List (GoStr × GoStr))
    (file : Option GoStr) :
    ((c.Parse flags file).outcome = .ok → (c.Parse flags file).set.parsed = true) ∧
    (c.parsed = true →
      (c.Parse flags file).set.parsed = true ∧
      (c.Parse flags file).readFile = false ∧
      (c.Parse flags file).fileSets = []) := by
  unfold ConfigoSet.Parse
  cases file with
  | none => exact ⟨fun _ => rfl, fun _ => ⟨rfl, rfl, rfl⟩⟩
  | some content =>
    dsimp only
    constructor
    · intro hok
      by_cases hp : (applySets c flags).parsed = true
      · rw [if_pos hp]
        exact hp
      · rw [if_neg hp] at hok ⊢
        cases hr : (runFileLines (applySets c flags) (splitLines content)).2.2 with
        | ok => rfl
        | indexOutOfRange => rw [hr] at hok; cases hok
        | unknownItemPanic => rw [hr] at hok; cases hok
    · intro hp
      have hp1 : (applySets c flags).parsed = true := by
        rw [applySets_parsed, hp]
      simp [hp1]

/-- Witness for C5: the bootstrap run marks `speciesSet` parsed, and a
second `Parse` on the parsed registry reads no file and applies no
file-sourced `Set`. -/
theorem C5_parsed_once_witness :
    (speciesSet.Parse [] none).set.parsed = true ∧
    (((speciesSet.Parse [] none).set.Parse [] (some "species=b\n".data)).readFile = false ∧
     ((speciesSet.Parse [] none).set.Parse [] (some "species=b\n".data)).fileSets = []) :=
  ⟨(C5_parsed_once speciesSet [] none).1 rfl,
   ((C5_parsed_once (speciesSet.Parse [] none).set []
       (some "species=b\n".data)).2 (by decide)).2.1,
   ((C5_parsed_once (speciesSet.Parse [] none).set []
       (some "species=b\n".data)).2 (by decide)).2.2⟩

theorem cellSet_idem (v : CellValue) (s : GoStr) :
    cellSet (cellSet v s).1 s = cellSet v s := by
  cases v with
  | boolV b => rfl
  | intV i => cases hp : parseInt0 s <;> simp [cellSet, hp]
  | int64V i => cases hp : parseInt0 s <;> simp [cellSet, hp]
  | uintV n => cases hp : parseUint0 s <;> simp [cellSet, hp]
  | uint64V n => cases hp : parseUint0 s <;> simp [cellSet, hp]
  | stringV t => rfl
  | durationV d => cases hp : goParseDuration s <;> simp [cellSet, hp]

theorem applySets_keep_target (sets : List (GoStr × GoStr)) (c : ConfigoSet)
    (name A : GoStr) (tgt : Configo)
    (h5 : ∀ p ∈ sets, p.1 = name → p.2 = A)
    (ha : name ∈ c.actual) (hl : lookupA c.formal name = some tgt)
    (hT : (cellSet tgt.Value A).1 = tgt.Value) (hE : (cellSet tgt.Value A).2 = none) :
    name ∈ (applySets c sets).actual ∧
    lookupA (applySets c sets).formal name = some tgt := by
  induction sets generalizing c with
  | nil => exact ⟨ha, hl⟩
  | cons p rest ih =>
    show name ∈ (applySets (c.Set p.1 p.2).1 rest).actual ∧ _
    by_cases hp : p.1 = name
    · have hv : p.2 = A := h5 p (List.mem_cons_self ..) hp
      subst hp hv
      have hstep := Set_lookup_self c p.1 p.2 tgt hl
      rw [hT] at hstep
      exact ih (c.Set p.1 p.2).1 (fun q hq => h5 q (List.mem_cons_of_mem _ hq))
        (Set_actual_mono c p.1 p.2 p.1 ha) hstep
    · have hne : name ≠ p.1 := fun he => hp he.symm
      exact ih (c.Set p.1 p.2).1 (fun q hq => h5 q (List.mem_cons_of_mem _ hq))
        (Set_actual_mono c p.1 p.2 name ha)
        ((Set_lookup_ne c p.1 p.2 name hne).trans hl)

theorem applySets_flag_phase (sets : List (GoStr × GoStr)) (c : ConfigoSet)
    (name A : GoStr) (cfg : Configo)
    (h1 : lookupA c.formal name = some cfg)
    (h4 : (name, A) ∈ sets)
    (h5 : ∀ p ∈ sets, p.1 = name → p.2 = A)
    (h6 : (cellSet cfg.Value A).2 = none) :
    name ∈ (applySets c sets).actual ∧
    lookupA (applySets c sets).formal name =
      some { cfg with Value := (cellSet cfg.Value A).1 } := by
  induction sets generalizing c cfg with
  | nil => cases h4
  | cons p rest ih =>
    show name ∈ (applySets (c.Set p.1 p.2).1 rest).actual ∧ _
    by_cases hp : p.1 = name
    · have hv : p.2 = A := h5 p (List.mem_cons_self ..) hp
      subst hp hv
      have hstep := Set_lookup_self c p.1 p.2 cfg h1
      have hact := Set_actual_self c p.1 p.2 cfg h1 h6
      have hT : (cellSet ({ cfg with Value := (cellSet cfg.Value p.2).1 } :
          Configo).Value p.2).1 = (cellSet cfg.Value p.2).1 := by
        show (cellSet (cellSet cfg.Value p.2).1 p.2).1 = _
        rw [cellSet_idem]
      have hE : (cellSet ({ cfg with Value := (cellSet cfg.Value p.2).1 } :
          Configo).Value p.2).2 = none := by
        show (cellSet (cellSet cfg.Value p.2).1 p.2).2 = _
        rw [cellSet_idem]
        exact h6
      exact applySets_keep_target rest (c.Set p.1 p.2).1 p.1 p.2 _
        (fun q hq => h5 q (List.mem_cons_of_mem _ hq)) hact hstep hT hE
    · have hne : name ≠ p.1 := fun he => hp he.symm
      have h4' : (name, A) ∈ rest := by
        rcases List.mem_cons.mp h4 with he | he
        · exact absurd (congrArg Prod.fst he).symm hp
        · exact he
      exact ih (c.Set p.1 p.2).1 cfg
        ((Set_lookup_ne c p.1 p.2 name hne).trans h1) h4'
        (fun q hq => h5 q (List.mem_cons_of_mem _ hq)) h6

/-- C1: for an option registered with both capabilities, supplied on the
command line with a parseable value `A` (each command-line occurrence
of the name carrying `A`), a run of `Parse` over any configuration
file — in particular one that sets the same option to a different
value — leaves the option resolved to `A`'s parse, and the file-driven
phase never calls `Set` for that name: command-line precedence is the
structural membership check against `actual`. -/
theorem C1_cmdline_precedence (c : ConfigoSet) (flags : List (GoStr × GoStr))
    (content : GoStr) (name A : GoStr) (cfg : Configo)
    (h1 : lookupA c.formal name = some cfg)
    (_h2 : cfg.IsFlag = true) (_h3 : cfg.IsConfig = true)
    (h4 : (name, A) ∈ flags)
    (h5 : ∀ p ∈ flags, p.1 = name → p.2 = A)
    (h6 : (cellSet cfg.Value A).2 = none) :
    lookupA (c.Parse flags (some content)).set.formal name =
      some { cfg with Value := (cellSet cfg.Value A).1 } ∧
    ∀ v, (name, v) ∉ (c.Parse flags (some content)).fileSets := by
  obtain ⟨ha, hl⟩ := applySets_flag_phase flags c name A cfg h1 h4 h5 h6
  unfold ConfigoSet.Parse
  dsimp only
  by_cases hp : (applySets c flags).parsed = true
  · rw [if_pos hp]
    exact ⟨hl, fun v hv => List.not_mem_nil _ hv⟩
  · rw [if_neg hp]
    obtain ⟨htr, hlk, _⟩ :=
      runFileLines_skips (splitLines content) (applySets c flags) name ha
    cases hr : (runFileLines (applySets c flags) (splitLines content)).2.2 with
    | ok =>
      refine ⟨?_, fun v hv => htr v hv⟩
      show lookupA (runFileLines (applySets c flags) (splitLines content)).1.formal name = _
      rw [hlk]
      exact hl
    | indexOutOfRange =>
      refine ⟨?_, fun v hv => htr v hv⟩
      show lookupA (runFileLines (applySets c flags) (splitLines content)).1.formal name = _
      rw [hlk]
      exact hl
    | unknownItemPanic =>
      refine ⟨?_, fun v hv => htr v hv⟩
      show lookupA (runFileLines (applySets c flags) (splitLines content)).1.formal name = _
      rw [hlk]
      exact hl

/-- Witness for C1: the override scenario — `species` supplied as `mole`
on the command line while the file says `species=gopher` resolves to
`mole`, and the file phase issues no `Set` for `species`. -/
theorem C1_cmdline_precedence_witness :
    lookupA (speciesSet.Parse [("species".data, "mole".data)]
        (some "species=gopher\n".data)).set.formal "species".data =
      some { Name := "species".data, Usage := "the species we are studying".data,
             Value := .stringV "mole".data, DefaultValue := "gopher".data,
             IsFlag := true, IsConfig := true } ∧
    ("species".data, "gopher".data) ∉
      (speciesSet.Parse [("species".data, "mole".data)]
        (some "species=gopher\n".data)).fileSets := by
  have h := C1_cmdline_precedence speciesSet [("species".data, "mole".data)]
    "species=gopher\n".data "species".data "mole".data
    { Name := "species".data, Usage := "the species we are studying".data,
      Value := .stringV "gopher".data, DefaultValue := "gopher".data,
      IsFlag := true, IsConfig := true }
    (by decide) rfl rfl (by decide) (by decide) (by decide)
  exact ⟨h.1, h.2 "gopher".data⟩

theorem lookupA_mem (m : List (GoStr × Configo)) (n : GoStr) (v : Configo)
    (h : lookupA m n = some v) : (n, v) ∈ m := by
  induction m with
  | nil => cases h
  | cons p rest ih =>
    by_cases hp : p.1 = n
    · rw [lookupA, if_pos hp] at h
      injection h with h'
      exact List.mem_cons.mpr (Or.inl (by rw [← hp, ← h']))
    · rw [lookupA, if_neg hp] at h
      exact List.mem_cons_of_mem _ (ih h)

theorem mem_lookupA (m : List (GoStr × Configo)) (n : GoStr) (v : Configo)
    (hd : (m.map Prod.fst).Nodup) (h : (n, v) ∈ m) : lookupA m n = some v := by
  induction m with
  | nil => cases h
  | cons p rest ih =>
    rcases List.mem_cons.mp h with he | he
    · rw [← he, lookupA, if_pos rfl]
    · have hp : p.1 ≠ n := by
        intro hc
        have hmm : n ∈ rest.map Prod.fst := List.mem_map.mpr ⟨(n, v), he, rfl⟩
        rw [List.map_cons, List.nodup_cons] at hd
        exact hd.1 (hc ▸ hmm)
      rw [lookupA, if_neg hp]
      exact ih ((List.nodup_cons.mp (List.map_cons _ _ _ ▸ hd)).2) he

theorem lookupA_none_iff (m : List (GoStr × Configo)) (n : GoStr) :
    lookupA m n = none ↔ n ∉ m.map Prod.fst := by
  induction m with
  | nil => simp [lookupA]
  | cons p rest ih =>
    by_cases hp : p.1 = n
    · rw [lookupA, if_pos hp, List.map_cons]
      constructor
      · intro h
        cases h
      · intro h
        exact absurd (List.mem_cons.mpr (Or.inl hp.symm)) h
    · rw [lookupA, if_neg hp, List.map_cons, ih]
      constructor
      · intro h hmem
        rcases List.mem_cons.mp hmem with he | he
        · exact hp he.symm
        · exact h he
      · intro h hmem
        exact h (List.mem_cons_of_mem _ hmem)

theorem lookupA_isSome_of_mem (m : List (GoStr × Configo)) (n : GoStr)
    (h : n ∈ m.map Prod.fst) : (lookupA m n).isSome := by
  cases hl : lookupA m n with
  | none => exact absurd h ((lookupA_none_iff m n).mp hl)
  | some v => rfl

theorem lookupA_perm (m₁ m₂ : List (GoStr × Configo)) (n : GoStr)
    (hp : m₁.Perm m₂) (hd : (m₁.map Prod.fst).Nodup) :
    lookupA m₁ n = lookupA m₂ n := by
  have hd₂ : (m₂.map Prod.fst).Nodup := ((hp.map Prod.fst).nodup_iff).mp hd
  cases hl : lookupA m₁ n with
  | none =>
    cases hl₂ : lookupA m₂ n with
    | none => rfl
    | some v =>
      have hm2 := lookupA_mem m₂ n v hl₂
      have hmem : n ∈ m₁.map Prod.fst := List.mem_map.mpr ⟨(n, v), hp.mem_iff.mpr hm2, rfl⟩
      exact absurd hmem ((lookupA_none_iff m₁ n).mp hl)
  | some v =>
    exact (mem_lookupA m₂ n v hd₂ (hp.mem_iff.mp (lookupA_mem m₁ n v hl))).symm

theorem lookupA_name (m : List (GoStr × Configo)) (n : GoStr) (v : Configo)
    (hnames : ∀ p ∈ m, p.2.Name = p.1) (h : lookupA m n = some v) : v.Name = n :=
  hnames (n, v) (lookupA_mem m n v h)

theorem sortConfigs_names (m : List (GoStr × Configo))
    (hnames : ∀ p ∈ m, p.2.Name = p.1) :
    (sortConfigs m).map Configo.Name = List.insertionSort (· ≤ ·) (m.map Prod.fst) := by
  unfold sortConfigs
  rw [List.map_map]
  conv_rhs => rw [← List.map_id (List.insertionSort (· ≤ ·) (m.map Prod.fst))]
  apply List.map_congr_left
  intro n hn
  have hmem : n ∈ m.map Prod.fst := (List.perm_insertionSort (· ≤ ·) _).mem_iff.mp hn
  cases hl : lookupA m n with
  | none => exact absurd hmem ((lookupA_none_iff m n).mp hl)
  | some v =>
    simp only [Function.comp_apply, hl, Option.getD_some]
    exact lookupA_name m n v hnames hl

theorem actualPairs_names (m : List (GoStr × Configo)) (l : List GoStr)
    (hsub : ∀ n ∈ l, (lookupA m n).isSome) :
    (l.filterMap (fun n => (lookupA m n).map (fun cfg => (n, cfg)))).map Prod.fst = l := by
  induction l with
  | nil => rfl
  | cons n rest ih =>
    have hs := hsub n (List.mem_cons_self ..)
    cases hl : lookupA m n with
    | none => rw [hl] at hs; cases hs
    | some cfg =>
      simp [List.filterMap_cons, hl,
        ih (fun x hx => hsub x (List.mem_cons_of_mem _ hx))]

theorem actualPairs_keyed (m : List (GoStr × Configo)) (l : List GoStr)
    (hnames : ∀ p ∈ m, p.2.Name = p.1) :
    ∀ p ∈ l.filterMap (fun n => (lookupA m n).map (fun cfg => (n, cfg))),
      p.2.Name = p.1 := by
  intro p hp
  rcases List.mem_filterMap.mp hp with ⟨n, _, hn⟩
  cases hl : lookupA m n with
  | none => rw [hl] at hn; cases hn
  | some cfg =>
    rw [hl] at hn
    injection hn with hn'
    rw [← hn']
    exact lookupA_name m n cfg hnames hl

/-- C8: `VisitAll` visits exactly the `formal` items and `Visit` exactly
the `actual` ones, each once, in strictly ascending lexicographic name
order; and the visit sequence depends only on the map's contents, not
on registration order (any permutation of the underlying bindings
yields the same sequence). -/
theorem C8_visit_order (c : ConfigoSet)
    (hf : (c.formal.map Prod.fst).Nodup)
    (hnames : ∀ p ∈ c.formal, p.2.Name = p.1)
    (ha : c.actual.Nodup)
    (hsub : ∀ n ∈ c.actual, (lookupA c.formal n).isSome) :
    (c.VisitAll.map Configo.Name).Perm (c.formal.map Prod.fst) ∧
    List.Sorted (· < ·) (c.VisitAll.map Configo.Name) ∧
    (c.Visit.map Configo.Name).Perm c.actual ∧
    List.Sorted (· < ·) (c.Visit.map Configo.Name) ∧
    (∀ m₂ : List (GoStr × Configo), m₂.Perm c.formal →
      sortConfigs m₂ = sortConfigs c.formal) := by
  have hAll : c.VisitAll.map Configo.Name =
      List.insertionSort (· ≤ ·) (c.formal.map Prod.fst) :=
    sortConfigs_names c.formal hnames
  have hVis : c.Visit.map Configo.Name = List.insertionSort (· ≤ ·) c.actual := by
    show (sortConfigs _).map Configo.Name = _
    rw [sortConfigs_names _ (actualPairs_keyed c.formal c.actual hnames),
      actualPairs_names c.formal c.actual hsub]
  refine ⟨?_, ?_, ?_, ?_, ?_⟩
  · rw [hAll]
    exact List.perm_insertionSort _ _
  · rw [hAll]
    exact (List.sorted_insertionSort _ _).lt_of_le
      (((List.perm_insertionSort _ _).nodup_iff).mpr hf)
  · rw [hVis]
    exact List.perm_insertionSort _ _
  · rw [hVis]
    exact (List.sorted_insertionSort _ _).lt_of_le
      (((List.perm_insertionSort _ _).nodup_iff).mpr ha)
  · intro m₂ hperm
    have hd₂ : (m₂.map Prod.fst).Nodup := ((hperm.map Prod.fst).nodup_iff).mpr hf
    have hkeys : List.insertionSort (· ≤ ·) (m₂.map Prod.fst) =
        List.insertionSort (· ≤ ·) (c.formal.map Prod.fst) := by
      apply List.eq_of_perm_of_sorted
        (((List.perm_insertionSort _ _).trans (hperm.map Prod.fst)).trans
          (List.perm_insertionSort _ _).symm)
        (List.sorted_insertionSort _ _) (List.sorted_insertionSort _ _)
    unfold sortConfigs
    rw [hkeys]
    apply List.map_congr_left
    intro n _
    rw [lookupA_perm m₂ c.formal n hperm hd₂]

/-- Witness for C8 at a two-option registry with one set option: both
visit orders are ascending and cover exactly the respective maps. -/
theorem C8_visit_order_witness :
    (let c : ConfigoSet :=
      { name := "p".data, parsed := false, actual := ["b".data],
        formal := [("b".data,
          { Name := "b".data, Usage := [], Value := .boolV true,
            DefaultValue := "true".data, IsFlag := true, IsConfig := true }),
          ("a".data,
          { Name := "a".data, Usage := [], Value := .intV 1,
            DefaultValue := ['1'], IsFlag := true, IsConfig := true })],
        path := [], delimiter := "=".data }
     (c.VisitAll.map Configo.Name).Perm (c.formal.map Prod.fst) ∧
     List.Sorted (· < ·) (c.VisitAll.map Configo.Name) ∧
     (c.Visit.map Configo.Name).Perm c.actual ∧
     List.Sorted (· < ·) (c.Visit.map Configo.Name)) := by
  have h := C8_visit_order
    { name := "p".data, parsed := false, actual := ["b".data],
      formal := [("b".data,
        { Name := "b".data, Usage := [], Value := .boolV true,
          DefaultValue := "true".data, IsFlag := true, IsConfig := true }),
        ("a".data,
        { Name := "a".data, Usage := [], Value := .intV 1,
          DefaultValue := ['1'], IsFlag := true, IsConfig := true })],
      path := [], delimiter := "=".data }
    (by decide) (by decide) (by decide) (by decide)
  exact ⟨h.1, h.2.1, h.2.2.1, h.2.2.2.1⟩

theorem splitLines_append (l rest : GoStr) (h : '\n' ∉ l) :
    splitLines (l ++ '\n' :: rest) = l :: splitLines rest := by
  induction l with
  | nil => simp [splitLines]
  | cons c cs ih =>
    have hc : c ≠ '\n' := fun he => h (he ▸ List.mem_cons_self ..)
    have h' : '\n' ∉ cs := fun hm => h (List.mem_cons_of_mem _ hm)
    simp only [List.cons_append, splitLines, hc, if_false, List.append_eq]
    rw [ih h']

theorem dropWhile_append_singleton (p : Char → Bool) (xs : GoStr) (a : Char)
    (h : p a = false) :
    (xs ++ [a]).dropWhile p = xs.dropWhile p ++ [a] := by
  induction xs with
  | nil => simp [List.dropWhile, h]
  | cons x xs ih =>
    by_cases hx : p x
    · simp [List.dropWhile, hx, ih]
    · simp [List.dropWhile, hx]

theorem trimSpace_hash (r : GoStr) :
    ∃ t, trimSpace ('#' :: r) = '#' :: t := by
  have hs : isGoSpace '#' = false := by decide
  unfold trimSpace
  rw [List.dropWhile_cons, hs]
  simp only [Bool.false_eq_true, if_false, List.reverse_cons]
  rw [dropWhile_append_singleton isGoSpace r.reverse '#' hs]
  exact ⟨_, by rw [List.reverse_append, List.reverse_singleton]; rfl⟩

theorem classify_hash (delim r : GoStr) : classifyLine delim ('#' :: r) = .skip := by
  obtain ⟨t, ht⟩ := trimSpace_hash r
  unfold classifyLine
  rw [ht]
  simp

theorem classify_nil (delim : GoStr) : classifyLine delim [] = .skip := rfl

theorem decodeLinesPairs_cons (delim : GoStr) (line : GoStr) (ls : List GoStr) :
    decodeLinesPairs delim (line :: ls) =
      match classifyLine delim line, decodeLinesPairs delim ls with
      | .skip, a => a
      | .malformed, _ => none
      | .entry n v, some a => some ((n, v) :: a)
      | .entry _ _, none => none := rfl

theorem classify_entry (delim name value : GoStr) (hdelim : delim ≠ [])
    (htrim : trimSpace (name ++ delim ++ value) = name ++ delim ++ value)
    (hhash : (name ++ delim).head? ≠ some '#')
    (hsplit : splitFirst delim (name ++ delim ++ value) = some (name, value))
    (htn : trimSpace name = name) (htv : trimSpace value = value) :
    classifyLine delim (name ++ delim ++ value) = .entry name value := by
  unfold classifyLine
  rw [htrim]
  have hne : name ++ delim ≠ [] := fun he => hdelim (List.append_eq_nil.mp he).2
  have hdl : 0 < delim.length := List.length_pos.mpr hdelim
  have hlen : 0 < (name ++ delim ++ value).length := by
    simp only [List.length_append]
    omega
  have hhead : (name ++ delim ++ value).head? = (name ++ delim).head? := by
    cases hne' : name ++ delim with
    | nil => exact absurd hne' hne
    | cons a l => simp [hne']
  rw [if_pos]
  · unfold splitN2
    rw [if_neg hdelim, hsplit]
    simp [htn, htv]
  · simp only [Bool.and_eq_true, decide_eq_true_eq, Bool.not_eq_true',
      decide_eq_false_iff_not]
    exact ⟨hlen, by rw [hhead]; exact hhash⟩

theorem decode_encoded_items (delim : GoStr) (hd : delim ≠ []) (hdn : '\n' ∉ delim)
    (items : List Configo)
    (hcfg : ∀ cfg ∈ items,
      '\n' ∉ cfg.Usage ∧ '\n' ∉ cfg.Name ∧ '\n' ∉ cfg.DefaultValue ∧
      trimSpace (cfg.Name ++ delim ++ cfg.DefaultValue) =
        cfg.Name ++ delim ++ cfg.DefaultValue ∧
      (cfg.Name ++ delim).head? ≠ some '#' ∧
      splitFirst delim (cfg.Name ++ delim ++ cfg.DefaultValue) =
        some (cfg.Name, cfg.DefaultValue) ∧
      trimSpace cfg.Name = cfg.Name ∧ trimSpace cfg.DefaultValue = cfg.DefaultValue) :
    decodeLinesPairs delim
        (splitLines (items.foldr (fun cfg acc => encodeItem delim cfg ++ acc) [])) =
      some (items.map (fun cfg => (cfg.Name, cfg.DefaultValue))) := by
  induction items with
  | nil => rfl
  | cons cfg items ih =>
    obtain ⟨hu, hn, hv, htl, hhash, hsplit, htn, htv⟩ := hcfg cfg (List.mem_cons_self ..)
    have ih' := ih (fun x hx => hcfg x (List.mem_cons_of_mem _ hx))
    have htext : (cfg :: items).foldr (fun cfg acc => encodeItem delim cfg ++ acc) [] =
        ('#' :: ' ' :: cfg.Usage) ++ '\n' ::
          ((cfg.Name ++ delim ++ cfg.DefaultValue) ++ '\n' ::
            ('\n' :: items.foldr (fun cfg acc => encodeItem delim cfg ++ acc) [])) := by
      show encodeItem delim cfg ++ _ = _
      simp [encodeItem, List.append_assoc]
    rw [htext]
    have h1 : '\n' ∉ '#' :: ' ' :: cfg.Usage := by
      intro hm
      rcases List.mem_cons.mp hm with he | hm'
      · cases he
      · rcases List.mem_cons.mp hm' with he | hm'' <;> first | cases ‹_› | exact hu hm''
    have h2 : '\n' ∉ cfg.Name ++ delim ++ cfg.DefaultValue := by
      intro hm
      rcases List.mem_append.mp hm with hm' | hm''
      · rcases List.mem_append.mp hm' with hm1 | hm2
        · exact hn hm1
        · exact hdn hm2
      · exact hv hm''
    rw [splitLines_append _ _ h1, splitLines_append _ _ h2]
    have h3 : splitLines ('\n' :: items.foldr (fun cfg acc => encodeItem delim cfg ++ acc) []) =
        [] :: splitLines (items.foldr (fun cfg acc => encodeItem delim cfg ++ acc) []) := by
      simp [splitLines]
    rw [h3]
    rw [decodeLinesPairs_cons, classify_hash]
    rw [decodeLinesPairs_cons, classify_entry delim cfg.Name cfg.DefaultValue hd htl hhash hsplit htn htv]
    rw [decodeLinesPairs_cons, classify_nil]
    rw [ih']
    rfl

/-- Counterexample to C7 as stated: a registry whose single config item
has default text `" x"` (reachable by registering a string option with
that initial value) writes the line `opt= x`, which decodes — after the
loop's `TrimSpace` of the value field — to `("opt", "x")`, not to the
`("opt", " x")` pair the claim requires for every registry. -/
theorem C7_counterexample :
    decodePairs paddedSet.delimiter
        (paddedSet.WriteDefaultConfig "07 Aug 13 20:15 -0600".data) =
      some [("opt".data, "x".data)] ∧
    configEntries paddedSet = [("opt".data, " x".data)] ∧
    ("x".data : GoStr) ≠ " x".data := by
  refine ⟨by decide, by decide, by decide⟩

/-- C7 (amended): for every registry whose config-capable items are
codec-clean — delimiter non-empty and newline-free, names, usage texts
and default texts newline-free, names and default texts already
whitespace-trimmed, the emitted line not starting with `#` and
splitting back at the first delimiter into exactly name and default —
the generated default file decodes to exactly the `(name, defaultText)`
pairs of the config-capable formal items in emitted order, and
re-encoding the decoded pairs yields identical `(name, delimiter,
value)` semantic triples. -/
theorem C7_default_file_roundtrip (c : ConfigoSet) (stamp : GoStr)
    (hdelim : c.delimiter ≠ []) (hdn : '\n' ∉ c.delimiter)
    (hstamp : '\n' ∉ stamp) (hname : '\n' ∉ c.name)
    (hcfg : ∀ cfg ∈ c.VisitAll.filter (fun cfg => cfg.IsConfig),
      '\n' ∉ cfg.Usage ∧ '\n' ∉ cfg.Name ∧ '\n' ∉ cfg.DefaultValue ∧
      trimSpace (cfg.Name ++ c.delimiter ++ cfg.DefaultValue) =
        cfg.Name ++ c.delimiter ++ cfg.DefaultValue ∧
      (cfg.Name ++ c.delimiter).head? ≠ some '#' ∧
      splitFirst c.delimiter (cfg.Name ++ c.delimiter ++ cfg.DefaultValue) =
        some (cfg.Name, cfg.DefaultValue) ∧
      trimSpace cfg.Name = cfg.Name ∧ trimSpace cfg.DefaultValue = cfg.DefaultValue) :
    decodePairs c.delimiter (c.WriteDefaultConfig stamp) = some (configEntries c) ∧
    Option.map (List.map (fun p => (p.1, c.delimiter, p.2)))
        (decodePairs c.delimiter (c.WriteDefaultConfig stamp)) =
      some ((configEntries c).map (fun p => (p.1, c.delimiter, p.2))) := by
  have hmain : decodePairs c.delimiter (c.WriteDefaultConfig stamp) =
      some (configEntries c) := by
    unfold decodePairs ConfigoSet.WriteDefaultConfig
    have h1 : '\n' ∉ "# Default config file for ".data ++ c.name := by
      intro hm
      rcases List.mem_append.mp hm with hm' | hm''
      · exact absurd hm' (by decide)
      · exact hname hm''
    have h2 : '\n' ∉ "# Written on ".data ++ stamp := by
      intro hm
      rcases List.mem_append.mp hm with hm' | hm''
      · exact absurd hm' (by decide)
      · exact hstamp hm''
    have hshape : "# Default config file for ".data ++ c.name ++ '\n' ::
        "# Written on ".data ++ stamp ++ '\n' :: '\n' ::
        (c.VisitAll.filter (fun cfg => cfg.IsConfig)).foldr
          (fun cfg acc => encodeItem c.delimiter cfg ++ acc) [] =
      ("# Default config file for ".data ++ c.name) ++ '\n' ::
        (("# Written on ".data ++ stamp) ++ '\n' :: ('\n' ::
          (c.VisitAll.filter (fun cfg => cfg.IsConfig)).foldr
            (fun cfg acc => encodeItem c.delimiter cfg ++ acc) [])) := by
      simp [List.append_assoc]
    rw [hshape, splitLines_append _ _ h1, splitLines_append _ _ h2]
    have h3 : splitLines ('\n' :: (c.VisitAll.filter (fun cfg => cfg.IsConfig)).foldr
        (fun cfg acc => encodeItem c.delimiter cfg ++ acc) []) =
        [] :: splitLines ((c.VisitAll.filter (fun cfg => cfg.IsConfig)).foldr
          (fun cfg acc => encodeItem c.delimiter cfg ++ acc) []) := by
      simp [splitLines]
    rw [h3]
    obtain ⟨t1, ht1⟩ := trimSpace_hash ("Default config file for ".data ++ c.name ++ [])
    rw [decodeLinesPairs_cons]
    rw [show classifyLine c.delimiter ("# Default config file for ".data ++ c.name) =
      .skip from classify_hash c.delimiter _]
    rw [decodeLinesPairs_cons]
    rw [show classifyLine c.delimiter ("# Written on ".data ++ stamp) =
      .skip from classify_hash c.delimiter _]
    rw [decodeLinesPairs_cons, classify_nil]
    exact decode_encoded_items c.delimiter hdelim hdn _ hcfg
  exact ⟨hmain, by rw [hmain]; rfl⟩

/-- Witness for C7's amended claim: the bootstrap registry's default
file decodes to exactly `[("species", "gopher")]` and re-encodes to the
same semantic triples. -/
theorem C7_default_file_roundtrip_witness :
    decodePairs speciesSet.delimiter
        (speciesSet.WriteDefaultConfig "07 Aug 13 20:15 -0600".data) =
      some (configEntries speciesSet) ∧
    Option.map (List.map (fun p => (p.1, speciesSet.delimiter, p.2)))
        (decodePairs speciesSet.delimiter
          (speciesSet.WriteDefaultConfig "07 Aug 13 20:15 -0600".data)) =
      some ((configEntries speciesSet).map
        (fun p => (p.1, speciesSet.delimiter, p.2))) :=
  C7_default_file_roundtrip speciesSet "07 Aug 13 20:15 -0600".data
    (by decide) (by decide) (by decide) (by decide) (by decide)

theorem digitChar_spec (m : Nat) (h : m < 10) :
    isDigitCh (Nat.digitChar m) = true ∧ digitVal (Nat.digitChar m) = m := by
  interval_cases m <;> exact ⟨rfl, rfl⟩

theorem natCharsCore_digits (n : Nat) :
    ∀ c ∈ natCharsCore n, isDigitCh c = true := by
  intro c hc
  unfold natCharsCore at hc
  rw [List.mem_reverse, List.mem_map] at hc
  obtain ⟨d, hd, rfl⟩ := hc
  exact (digitChar_spec d (Nat.digits_lt_base (by omega) hd)).1

theorem natChars_digits (n : Nat) : ∀ c ∈ natChars n, isDigitCh c = true := by
  unfold natChars
  by_cases h : n = 0
  · simp only [h, if_true]
    intro c hc
    rw [List.mem_singleton] at hc
    subst hc
    rfl
  · simp only [h, if_false]
    exact natCharsCore_digits n

theorem bigval_append (x : Nat) (a b : GoStr) :
    bigval x (a ++ b) = bigval (bigval x a) b := by
  unfold bigval
  exact List.foldl_append ..

theorem bigval_ge (x : Nat) (ds : GoStr) : x ≤ bigval x ds := by
  induction ds generalizing x with
  | nil => exact Nat.le_refl x
  | cons c t ih =>
    calc x ≤ 10 * x + digitVal c := by omega
    _ ≤ bigval (10 * x + digitVal c) t := ih _

theorem natCharsCore_val (n : Nat) : ∀ x,
    bigval x (natCharsCore n) = x * 10 ^ (natCharsCore n).length + n := by
  induction n using Nat.strong_induction_on with
  | _ n ih =>
    intro x
    by_cases h : n = 0
    · subst h
      simp [natCharsCore, bigval]
    · have hrec : natCharsCore n = natCharsCore (n / 10) ++ [Nat.digitChar (n % 10)] := by
        unfold natCharsCore
        rw [Nat.digits_def' (by omega : (1:Nat) < 10) (Nat.pos_of_ne_zero h)]
        simp
      rw [hrec, bigval_append, List.length_append]
      have ihv := ih (n / 10) (Nat.div_lt_self (Nat.pos_of_ne_zero h) (by omega)) x
      show bigval (bigval x (natCharsCore (n / 10))) [Nat.digitChar (n % 10)] = _
      have hdv : digitVal (Nat.digitChar (n % 10)) = n % 10 :=
        (digitChar_spec (n % 10) (Nat.mod_lt n (by omega))).2
      show 10 * bigval x (natCharsCore (n / 10)) + digitVal (Nat.digitChar (n % 10)) = _
      rw [ihv, hdv, List.length_singleton]
      have : n = 10 * (n / 10) + n % 10 := (Nat.div_add_mod n 10).symm
      ring_nf
      omega

theorem natChars_val (n : Nat) : bigval 0 (natChars n) = n := by
  unfold natChars
  by_cases h : n = 0
  · simp [h, bigval, digitVal]
  · simp only [h, if_false]
    rw [natCharsCore_val n 0]
    omega

theorem natChars_head (n : Nat) :
    ∃ c t, natChars n = c :: t ∧ isDigitCh c = true := by
  cases hn : natChars n with
  | nil =>
    unfold natChars at hn
    by_cases h : n = 0
    · rw [h] at hn; cases hn
    · rw [if_neg h] at hn
      have := natChars_val n
      unfold natChars at this
      rw [if_neg h, hn] at this
      exact absurd this.symm (by unfold bigval; simpa using h)
  | cons c t =>
    refine ⟨c, t, rfl, natChars_digits n c (by rw [hn]; exact List.mem_cons_self ..)⟩

theorem natCharsCore_head_ne_zero (n : Nat) (h : n ≠ 0) :
    ∃ c t, natCharsCore n = c :: t ∧ isDigitCh c = true ∧ c ≠ '0' := by
  induction n using Nat.strong_induction_on with
  | _ n ih =>
    have hrec : natCharsCore n = natCharsCore (n / 10) ++ [Nat.digitChar (n % 10)] := by
      unfold natCharsCore
      rw [Nat.digits_def' (by omega : (1:Nat) < 10) (Nat.pos_of_ne_zero h)]
      simp
    by_cases h10 : n / 10 = 0
    · have hlt : n < 10 := by omega
      have hm : n % 10 = n := Nat.mod_eq_of_lt hlt
      refine ⟨Nat.digitChar (n % 10), [], ?_, (digitChar_spec _ (by omega)).1, ?_⟩
      · rw [hrec, h10]
        simp [natCharsCore]
      · rw [hm]
        interval_cases n <;> first | (exact absurd rfl h) | decide
    · obtain ⟨c, t, hct, hdc, hcz⟩ := ih (n / 10)
        (Nat.div_lt_self (Nat.pos_of_ne_zero h) (by omega)) h10
      exact ⟨c, t ++ [Nat.digitChar (n % 10)], by rw [hrec, hct]; rfl, hdc, hcz⟩

theorem parseUintDigits_run (maxVal : Nat) (_hmv : 9 ≤ maxVal) (ds : GoStr)
    (hd : ∀ c ∈ ds, isDigitCh c = true) : ∀ x, bigval x ds ≤ maxVal →
    parseUintDigits 10 (maxVal / 10 + 1) maxVal true ds x = .ok (bigval x ds) := by
  induction ds with
  | nil => intro x _; rfl
  | cons c t ih =>
    intro x hx
    have hc : isDigitCh c = true := hd c (List.mem_cons_self ..)
    have hdv : digitVal c < 10 := by
      unfold isDigitCh at hc
      unfold digitVal
      simp only [Bool.and_eq_true, decide_eq_true_eq] at hc
      omega
    have hstep : bigval x (c :: t) = bigval (10 * x + digitVal c) t := rfl
    have hge : 10 * x + digitVal c ≤ bigval x (c :: t) := by
      rw [hstep]
      exact bigval_ge _ t
    have hxc : ¬(c = '_' && true) = true := by
      unfold isDigitCh at hc
      simp only [Bool.and_eq_true, decide_eq_true_eq] at hc
      simp only [Bool.and_true, decide_eq_true_eq]
      intro he
      rw [he] at hc
      exact absurd hc.2 (by decide)
    unfold parseUintDigits
    rw [if_neg (by simpa using hxc), hc]
    simp only [if_true]
    rw [if_neg (by omega : ¬ digitVal c ≥ 10)]
    rw [if_neg (show ¬ x ≥ maxVal / 10 + 1 by omega)]
    rw [if_neg (show ¬ x * 10 + digitVal c > maxVal by omega)]
    have hx' : bigval (x * 10 + digitVal c) t ≤ maxVal := by
      rw [show x * 10 + digitVal c = 10 * x + digitVal c by ring, ← hstep]
      exact hx
    rw [ih (fun d hd' => hd d (List.mem_cons_of_mem _ hd')) _ hx']
    rw [hstep, show x * 10 + digitVal c = 10 * x + digitVal c by ring]

theorem undOKLoop_digits (ds : GoStr) (hd : ∀ c ∈ ds, isDigitCh c = true) :
    ∀ saw, saw ≠ '_' → undOKLoop false ds saw = true := by
  induction ds with
  | nil =>
    intro saw hs
    unfold undOKLoop
    simpa using hs
  | cons c t ih =>
    intro saw _
    have hc : isDigitCh c = true := hd c (List.mem_cons_self ..)
    unfold undOKLoop
    rw [if_pos (by simp [hc])]
    exact ih (fun d hd' => hd d (List.mem_cons_of_mem _ hd')) '0' (by decide)

theorem underscoreOK_digits (c : Char) (t : GoStr)
    (hd : ∀ x ∈ c :: t, isDigitCh x = true) (hc0 : c ≠ '0') :
    underscoreOK (c :: t) = true := by
  have hc : isDigitCh c = true := hd c (List.mem_cons_self ..)
  have hcpm : ¬(c = '-' || c = '+') = true := by
    unfold isDigitCh at hc
    simp only [Bool.and_eq_true, decide_eq_true_eq] at hc
    simp only [Bool.or_eq_true, decide_eq_true_eq]
    rintro (he | he) <;> (rw [he] at hc; revert hc; decide)
  unfold underscoreOK
  simp only [hcpm, Bool.false_eq_true, if_false]
  cases t with
  | nil => exact undOKLoop_digits [c] (by simpa using hc) '^' (by decide)
  | cons c1 t1 =>
    dsimp only
    rw [if_neg (by simp [hc0])]
    exact undOKLoop_digits (c :: c1 :: t1) hd '^' (by decide)

theorem parseUint0_natChars (n : Nat) (h : n ≤ 2 ^ 64 - 1) :
    parseUint0 (natChars n) = .ok n := by
  by_cases h0 : n = 0
  · subst h0
    decide
  · obtain ⟨c, t, hct, hdc, hcz⟩ := natCharsCore_head_ne_zero n h0
    have hch : natChars n = c :: t := by
      unfold natChars
      rw [if_neg h0, hct]
    have hdigits : ∀ x ∈ c :: t, isDigitCh x = true := by
      rw [← hch]
      exact natChars_digits n
    have hval : bigval 0 (c :: t) = n := by
      rw [← hch]
      exact natChars_val n
    rw [hch]
    unfold parseUint0
    rw [if_neg (by simp)]
    dsimp only
    rw [if_neg hcz]
    have hrun := parseUintDigits_run (2 ^ 64 - 1) (by norm_num) (c :: t) hdigits 0
      (by rw [hval]; exact h)
    simp only at hrun ⊢
    rw [hrun, hval]
    simp [underscoreOK_digits c t hdigits hcz]

theorem digit_ne_sign (c : Char) (hc : isDigitCh c = true) :
    c ≠ '+' ∧ c ≠ '-' ∧ c ≠ '.' := by
  unfold isDigitCh at hc
  simp only [Bool.and_eq_true, decide_eq_true_eq] at hc
  refine ⟨?_, ?_, ?_⟩ <;> (intro he; rw [he] at hc; revert hc; decide)

theorem parseInt0_intChars (i : Int) (h1 : -(2 ^ 63) ≤ i) (h2 : i < 2 ^ 63) :
    parseInt0 (intChars i) = .ok i := by
  by_cases hneg : i < 0
  · have hs : intChars i = '-' :: natChars i.natAbs := by
      unfold intChars
      rw [if_pos hneg]
    have hn : i.natAbs ≤ 2 ^ 63 := by omega
    have hu := parseUint0_natChars i.natAbs (by omega)
    rw [hs]
    unfold parseInt0
    rw [if_neg (by simp)]
    dsimp only
    rw [if_neg (by decide), if_pos rfl]
    rw [hu]
    dsimp only
    rw [if_neg (by simp), if_neg (by simp; omega)]
    have hnn : (i.natAbs : Int) = -i := Int.ofNat_natAbs_of_nonpos (by omega)
    simp [hnn]
  · have hge : 0 ≤ i := by omega
    have hs : intChars i = natChars i.natAbs := by
      unfold intChars
      rw [if_neg hneg]
    have hn : i.natAbs < 2 ^ 63 := by omega
    have hu := parseUint0_natChars i.natAbs (by omega)
    obtain ⟨c, t, hct, hdc⟩ := natChars_head i.natAbs
    obtain ⟨hcp, hcm, _⟩ := digit_ne_sign c hdc
    rw [hs, hct]
    unfold parseInt0
    rw [if_neg (by simp)]
    dsimp only
    rw [if_neg hcp, if_neg hcm]
    rw [← hct, hu]
    dsimp only
    rw [if_neg (by simp; omega)]
    rw [if_neg (by simp)]
    have : (i.natAbs : Int) = i := Int.natAbs_of_nonneg hge
    rw [this]
    simp

theorem leadingIntD_run (ds : GoStr) (hd : ∀ c ∈ ds, isDigitCh c = true) :
    ∀ rest x, bigval x ds ≤ 2 ^ 63 →
    (rest = [] ∨ ∃ c t, rest = c :: t ∧ isDigitCh c = false) →
    leadingIntD (ds ++ rest) x = some (bigval x ds, rest) := by
  induction ds with
  | nil =>
    intro rest x _ hrest
    rcases hrest with rfl | ⟨c, t, rfl, hc⟩
    · rfl
    · show leadingIntD (c :: t) x = _
      unfold leadingIntD
      rw [hc]
      rfl
  | cons c t ih =>
    intro rest x hx hrest
    have hc : isDigitCh c = true := hd c (List.mem_cons_self ..)
    have hdv : digitVal c < 10 := by
      unfold isDigitCh at hc
      unfold digitVal
      simp only [Bool.and_eq_true, decide_eq_true_eq] at hc
      omega
    have hstep : bigval x (c :: t) = bigval (10 * x + digitVal c) t := rfl
    have hge : 10 * x + digitVal c ≤ bigval x (c :: t) := by
      rw [hstep]; exact bigval_ge _ t
    show leadingIntD (c :: (t ++ rest)) x = _
    unfold leadingIntD
    rw [hc]
    simp only [if_true]
    rw [if_neg (show ¬ x > 2 ^ 63 / 10 by omega)]
    rw [if_neg (show ¬ x * 10 + digitVal c > 2 ^ 63 by omega)]
    rw [ih (fun d hd' => hd d (List.mem_cons_of_mem _ hd')) rest (x * 10 + digitVal c)
      (by rw [show x * 10 + digitVal c = 10 * x + digitVal c by ring, ← hstep]; exact hx)
      hrest]
    rw [hstep, show x * 10 + digitVal c = 10 * x + digitVal c by ring]

theorem leadingFrac_run (ds : GoStr) (hd : ∀ c ∈ ds, isDigitCh c = true) :
    ∀ rest x sc, bigval x ds ≤ 2 ^ 63 - 1 →
    (rest = [] ∨ ∃ c t, rest = c :: t ∧ isDigitCh c = false) →
    leadingFrac (ds ++ rest) x sc false = (bigval x ds, sc * 10 ^ ds.length, rest) := by
  induction ds with
  | nil =>
    intro rest x sc _ hrest
    rcases hrest with rfl | ⟨c, t, rfl, hc⟩
    · show leadingFrac [] x sc false = _
      unfold leadingFrac
      simp [bigval]
    · show leadingFrac (c :: t) x sc false = _
      unfold leadingFrac
      rw [hc]
      simp [bigval]
  | cons c t ih =>
    intro rest x sc hx hrest
    have hc : isDigitCh c = true := hd c (List.mem_cons_self ..)
    have hdv : digitVal c < 10 := by
      unfold isDigitCh at hc
      unfold digitVal
      simp only [Bool.and_eq_true, decide_eq_true_eq] at hc
      omega
    have hstep : bigval x (c :: t) = bigval (10 * x + digitVal c) t := rfl
    have hge : 10 * x + digitVal c ≤ bigval x (c :: t) := by
      rw [hstep]; exact bigval_ge _ t
    show leadingFrac (c :: (t ++ rest)) x sc false = _
    unfold leadingFrac
    rw [hc]
    simp only [if_true, Bool.false_eq_true, if_false]
    rw [if_neg (show ¬ x > (2 ^ 63 - 1) / 10 by omega)]
    rw [if_neg (show ¬ x * 10 + digitVal c > 2 ^ 63 by omega)]
    rw [ih (fun d hd' => hd d (List.mem_cons_of_mem _ hd')) rest (x * 10 + digitVal c)
      (sc * 10)
      (by rw [show x * 10 + digitVal c = 10 * x + digitVal c by ring, ← hstep]; exact hx)
      hrest]
    rw [hstep, show x * 10 + digitVal c = 10 * x + digitVal c by ring]
    have : sc * 10 * 10 ^ t.length = sc * 10 ^ (t.length + 1) := by ring
    rw [this]
    rfl

theorem takeWhile_chunk (p : Char → Bool) (us rest : GoStr)
    (h1 : ∀ c ∈ us, p c = true)
    (h2 : rest = [] ∨ ∃ c t, rest = c :: t ∧ p c = false) :
    (us ++ rest).takeWhile p = us := by
  induction us with
  | nil =>
    rcases h2 with rfl | ⟨c, t, rfl, hc⟩
    · rfl
    · show List.takeWhile p (c :: t) = []
      rw [List.takeWhile_cons, hc]
      simp
  | cons c t ih =>
    show List.takeWhile p (c :: (t ++ rest)) = _
    simp [List.takeWhile_cons, h1 c (List.mem_cons_self ..),
      ih (fun d hd' => h1 d (List.mem_cons_of_mem _ hd'))]

theorem bigval_zeros (x : Nat) (k : Nat) :
    bigval x (List.replicate k '0') = x * 10 ^ k := by
  induction k generalizing x with
  | zero => simp [bigval]
  | succ k ih =>
    show bigval (10 * x + digitVal '0') (List.replicate k '0') = _
    rw [ih]
    have : digitVal '0' = 0 := rfl
    rw [this]
    ring

theorem dropTrailZeros_spec (l : GoStr) :
    ∃ z, l = dropTrailZeros l ++ List.replicate z '0' := by
  induction l using List.reverseRecOn with
  | nil => exact ⟨0, rfl⟩
  | append_singleton t c ih =>
    by_cases hc : c = '0'
    · subst hc
      have hdt : dropTrailZeros (t ++ ['0']) = dropTrailZeros t := by
        unfold dropTrailZeros
        rw [List.reverse_append]
        simp [List.dropWhile_cons]
      obtain ⟨z, hz⟩ := ih
      refine ⟨z + 1, ?_⟩
      rw [hdt, List.replicate_succ']
      rw [← List.append_assoc, ← hz]
    · have hdt : dropTrailZeros (t ++ [c]) = t ++ [c] := by
        unfold dropTrailZeros
        rw [List.reverse_append]
        simp [List.dropWhile_cons, hc]
      exact ⟨0, by rw [hdt]; simp⟩

theorem natCharsCore_len_le (m k : Nat) (h : m < 10 ^ k) :
    (natCharsCore m).length ≤ k := by
  unfold natCharsCore
  simp only [List.length_reverse, List.length_map]
  by_cases h0 : m = 0
  · simp [h0]
  · rw [Nat.digits_len 10 m (by omega) h0]
    have hlog := Nat.log_lt_of_lt_pow h0 h
    omega

theorem fracChars_spec (u p : Nat) (hp : u % 10 ^ p ≠ 0) :
    ∃ fd z, fracChars u p = '.' :: fd ∧ fd ≠ [] ∧
      (∀ c ∈ fd, isDigitCh c = true) ∧
      bigval 0 fd * 10 ^ z = u % 10 ^ p ∧ fd.length + z = p ∧
      1 ≤ bigval 0 fd ∧ bigval 0 fd ≤ u % 10 ^ p := by
  set frac := u % 10 ^ p with hfrac
  have hflt : frac < 10 ^ p := Nat.mod_lt _ (Nat.pos_pow_of_pos p (by omega))
  set l := padDigits p (natChars frac) with hl
  have hld : ∀ c ∈ l, isDigitCh c = true := by
    intro c hc
    rw [hl] at hc
    unfold padDigits at hc
    rcases List.mem_append.mp hc with hc' | hc'
    · rw [List.eq_of_mem_replicate hc']
      rfl
    · exact natChars_digits frac c hc'
  have hlen : l.length = p := by
    rw [hl]
    unfold padDigits
    rw [List.length_append, List.length_replicate]
    have hle : (natChars frac).length ≤ p := by
      unfold natChars
      rw [if_neg hp]
      exact natCharsCore_len_le frac p hflt
    omega
  have hlv : bigval 0 l = frac := by
    rw [hl]
    unfold padDigits
    rw [bigval_append, bigval_zeros]
    simp only [Nat.zero_mul]
    exact natChars_val frac
  obtain ⟨z, hz⟩ := dropTrailZeros_spec l
  set fd := dropTrailZeros l with hfd
  have hval2 : bigval 0 fd * 10 ^ z = frac := by
    rw [← hlv, hz, bigval_append, bigval_zeros]
  have hfdne : fd ≠ [] := by
    intro he
    rw [he] at hval2
    unfold bigval at hval2
    simp at hval2
    exact hp hval2.symm
  have hfdd : ∀ c ∈ fd, isDigitCh c = true := by
    intro c hc
    exact hld c (by rw [hz]; exact List.mem_append_left _ hc)
  have hlens : fd.length + z = p := by
    have := congrArg List.length hz
    rw [List.length_append, List.length_replicate, hlen] at this
    omega
  have hpos : 1 ≤ bigval 0 fd := by
    by_contra hneg
    have h0 : bigval 0 fd = 0 := by omega
    rw [h0] at hval2
    simp at hval2
    exact hp hval2.symm
  refine ⟨fd, z, ?_, hfdne, hfdd, hval2, hlens, hpos, ?_⟩
  · unfold fracChars
    rw [if_neg hp, ← hfrac, ← hl, ← hfd]
  · calc bigval 0 fd ≤ bigval 0 fd * 10 ^ z :=
      Nat.le_mul_of_pos_right _ (Nat.pos_pow_of_pos z (by omega))
    _ = frac := hval2


theorem parseDurLoop_seg (fuel d : Nat) (c0 : Char) (ipt : GoStr)
    (hip : ∀ c ∈ c0 :: ipt, isDigitCh c = true)
    (v : Nat) (hv : bigval 0 (c0 :: ipt) = v) (hvle : v ≤ 2 ^ 63)
    (fp : GoStr) (f sc : Nat)
    (hfp : (fp = [] ∧ f = 0 ∧ sc = 1) ∨
      (∃ fd, fp = '.' :: fd ∧ fd ≠ [] ∧ (∀ c ∈ fd, isDigitCh c = true) ∧
        bigval 0 fd = f ∧ sc = 10 ^ fd.length ∧ f ≤ 2 ^ 63 - 1 ∧ 1 ≤ f))
    (us : GoStr) (husne : us ≠ [])
    (hus : ∀ c ∈ us, (c = '.' || isDigitCh c) = false)
    (unit : Nat) (hunit : unitVal us = some unit)
    (rest : GoStr)
    (hrest : rest = [] ∨ ∃ c t, rest = c :: t ∧ isDigitCh c = true)
    (hov1 : v ≤ 2 ^ 63 / unit)
    (w : Nat) (hw : w = if 0 < f then v * unit + f * unit / sc else v * unit)
    (hwle : w ≤ 2 ^ 63) (hdw : d + w ≤ 2 ^ 63) :
    parseDurLoop (fuel + 1) ((c0 :: ipt) ++ fp ++ us ++ rest) d =
      parseDurLoop fuel rest (d + w) := by
  have hc0 : isDigitCh c0 = true := hip c0 (List.mem_cons_self ..)
  obtain ⟨u0, ust, hus0⟩ : ∃ u0 ust, us = u0 :: ust := by
    cases us with
    | nil => exact absurd rfl husne
    | cons a b => exact ⟨a, b, rfl⟩
  have hu0 : (u0 = '.' || isDigitCh u0) = false := by
    rw [hus0] at hus
    exact hus u0 (List.mem_cons_self ..)
  have hu0d : isDigitCh u0 = false := by
    simp only [Bool.or_eq_false_iff] at hu0
    exact hu0.2
  have hu0dot : u0 ≠ '.' := by
    simp only [Bool.or_eq_false_iff, decide_eq_false_iff_not] at hu0
    exact hu0.1
  have hnd : fp ++ us ++ rest = [] ∨
      ∃ c t, fp ++ us ++ rest = c :: t ∧ isDigitCh c = false := by
    rcases hfp with ⟨rfl, _, _⟩ | ⟨fd, rfl, _⟩
    · right
      rw [hus0]
      exact ⟨u0, ust ++ rest, by simp, hu0d⟩
    · right
      exact ⟨'.', fd ++ us ++ rest, by simp, by decide⟩
  have hlead : leadingIntD ((c0 :: ipt) ++ (fp ++ us ++ rest)) 0 =
      some (v, fp ++ us ++ rest) := by
    rw [leadingIntD_run (c0 :: ipt) hip (fp ++ us ++ rest) 0 (hv ▸ hvle) hnd, hv]
  have htw : (us ++ rest).takeWhile (fun c => !(c = '.' || isDigitCh c)) = us := by
    apply takeWhile_chunk
    · intro c hc
      simp [hus c hc]
    · rcases hrest with rfl | ⟨c, t, rfl, hc⟩
      · left; rfl
      · right
        exact ⟨c, t, rfl, by simp [hc]⟩
  have hshape : (c0 :: ipt) ++ fp ++ us ++ rest = (c0 :: ipt) ++ (fp ++ us ++ rest) := by
    simp [List.append_assoc]
  rw [hshape]
  have hcons : (c0 :: ipt) ++ (fp ++ us ++ rest) = c0 :: (ipt ++ (fp ++ us ++ rest)) := rfl
  rw [hcons]
  rw [parseDurLoop]
  rw [← hcons, hlead]
  rw [if_neg (show ¬¬((decide (c0 = '.') || isDigitCh c0) = true) by simp [hc0])]
  dsimp only
  rcases hfp with ⟨rfl, rfl, rfl⟩ | ⟨fd, rfl, hfdne, hfdd, hfdv, hsc, hfle, hfpos⟩
  · -- segment without a fractional part
    subst hus0
    simp only [List.nil_append, List.cons_append] at htw hunit husne hlead hov1 hw hdw ⊢
    rw [if_neg hu0dot]
    dsimp only
    rw [if_neg (by simp; omega)]
    rw [htw]
    rw [if_neg (by simp)]
    rw [hunit]
    dsimp only
    rw [if_neg (show ¬ v > 2 ^ 63 / unit by omega)]
    rw [if_neg (show ¬ ((0:Nat) > 0) by omega)]
    rw [if_neg (show ¬ ((decide ((0:Nat) > 0) && decide (v * unit > 2 ^ 63)) = true) by simp)]
    rw [if_neg (by omega : ¬ ((0:Nat) < 0))] at hw
    rw [if_neg (show ¬ d + v * unit > 2 ^ 63 by omega)]
    have hdrop : List.drop (u0 :: ust).length (u0 :: (ust ++ rest)) = rest :=
      List.drop_left (u0 :: ust) rest
    rw [hdrop, hw]
  · -- segment with a fractional part
    subst hus0
    simp only [List.append_assoc, List.cons_append] at htw ⊢
    simp only [if_true]
    have hfr0 : leadingFrac (fd ++ (u0 :: (ust ++ rest))) 0 1 false =
        (f, 1 * 10 ^ fd.length, u0 :: (ust ++ rest)) := by
      rw [leadingFrac_run fd hfdd (u0 :: (ust ++ rest)) 0 1 (by rw [hfdv]; exact hfle)
        (Or.inr ⟨u0, ust ++ rest, rfl, hu0d⟩), hfdv]
    rw [hfr0]
    dsimp only
    simp only [Nat.one_mul]
    rw [hsc] at hw
    rw [if_pos (show 0 < f by omega)] at hw
    rw [if_neg (by simp; omega)]
    rw [htw]
    rw [if_neg (by simp)]
    rw [hunit]
    dsimp only
    rw [if_neg (show ¬ v > 2 ^ 63 / unit by omega)]
    rw [if_pos (show f > 0 by omega)]
    rw [if_neg (show ¬ ((decide (f > 0) &&
        decide (v * unit + f * unit / 10 ^ fd.length > 2 ^ 63)) = true) by
      simp only [Bool.and_eq_true, decide_eq_true_eq, not_and]
      intro _
      omega)]
    rw [if_neg (show ¬ d + (v * unit + f * unit / 10 ^ fd.length) > 2 ^ 63 by omega)]
    have hdrop : List.drop (u0 :: ust).length (u0 :: (ust ++ rest)) = rest :=
      List.drop_left (u0 :: ust) rest
    rw [hdrop, hw]

theorem parseDurLoop_nil (fuel d : Nat) : parseDurLoop (fuel + 1) [] d = some d := rfl

theorem parseDurLoop_numseg (fuel d ipv u p : Nat) (us : GoStr) (unit : Nat)
    (hu : unitVal us = some unit) (hup : unit = 10 ^ p) (hple : p ≤ 9)
    (husne : us ≠ []) (hus : ∀ c ∈ us, (c = '.' || isDigitCh c) = false)
    (rest : GoStr)
    (hrest : rest = [] ∨ ∃ c t, rest = c :: t ∧ isDigitCh c = true)
    (hipb : ipv ≤ 2 ^ 63 / unit)
    (htot : d + (ipv * unit + u % 10 ^ p) ≤ 2 ^ 63) :
    parseDurLoop (fuel + 1) (natChars ipv ++ fracChars u p ++ us ++ rest) d =
      parseDurLoop fuel rest (d + (ipv * unit + u % 10 ^ p)) := by
  obtain ⟨c, t, hct, _⟩ := natChars_head ipv
  have hipd : ∀ x ∈ c :: t, isDigitCh x = true := by
    rw [← hct]; exact natChars_digits ipv
  have hval : bigval 0 (c :: t) = ipv := by rw [← hct]; exact natChars_val ipv
  have hvle : ipv ≤ 2 ^ 63 := by
    have h1 : 2 ^ 63 / unit ≤ 2 ^ 63 := Nat.div_le_self _ _
    omega
  have hmul : ipv * unit ≤ 2 ^ 63 :=
    le_trans (Nat.mul_le_mul_right _ hipb) (Nat.div_mul_le_self _ _)
  by_cases hz : u % 10 ^ p = 0
  · have hfc : fracChars u p = [] := by unfold fracChars; rw [if_pos hz]
    rw [hct, hfc]
    rw [parseDurLoop_seg fuel d c t hipd ipv hval hvle [] 0 1
      (Or.inl ⟨rfl, rfl, rfl⟩) us husne hus unit hu rest hrest hipb
      (ipv * unit) (by simp) hmul (by omega)]
    congr 1
    omega
  · obtain ⟨fd, z, hfc, hfdne, hfdd, hfval, hlenz, hf1, hfle⟩ := fracChars_spec u p hz
    have hplt : (10 : Nat) ^ p ≤ 10 ^ 9 := Nat.pow_le_pow_right (by omega) hple
    have hfrlt : u % 10 ^ p < 10 ^ p := Nat.mod_lt _ (Nat.pos_pow_of_pos p (by omega))
    have hfb : bigval 0 fd ≤ 2 ^ 63 - 1 := by omega
    have hfdiv : bigval 0 fd * unit / 10 ^ fd.length = u % 10 ^ p := by
      rw [hup]
      calc bigval 0 fd * 10 ^ p / 10 ^ fd.length
          = bigval 0 fd * 10 ^ z * 10 ^ fd.length / 10 ^ fd.length := by
            rw [← hlenz, pow_add]
            have hre : bigval 0 fd * (10 ^ fd.length * 10 ^ z) =
                bigval 0 fd * 10 ^ z * 10 ^ fd.length := by ring
            rw [hre]
        _ = bigval 0 fd * 10 ^ z :=
            Nat.mul_div_cancel _ (Nat.pos_pow_of_pos _ (by omega))
        _ = u % 10 ^ p := hfval
    have hf0 : 0 < bigval 0 fd := hf1
    have hw : ipv * unit + u % 10 ^ p =
        if 0 < bigval 0 fd then ipv * unit + bigval 0 fd * unit / 10 ^ fd.length
        else ipv * unit := by
      rw [if_pos hf0, hfdiv]
    rw [hct, hfc]
    rw [parseDurLoop_seg fuel d c t hipd ipv hval hvle ('.' :: fd) (bigval 0 fd)
      (10 ^ fd.length) (Or.inr ⟨fd, rfl, hfdne, hfdd, rfl, rfl, hfb, hf1⟩)
      us husne hus unit hu rest hrest hipb
      (ipv * unit + u % 10 ^ p) hw (by omega) (by omega)]

theorem durBody_seg1 (u ipv p : Nat) (us : GoStr) (unit : Nat)
    (hu : unitVal us = some unit) (hup : unit = 10 ^ p) (hple : p ≤ 9)
    (husne : us ≠ []) (hus : ∀ c ∈ us, (c = '.' || isDigitCh c) = false)
    (hipb : ipv ≤ 2 ^ 63 / unit)
    (he : ipv * unit + u % 10 ^ p = u) (h2 : u ≤ 2 ^ 63)
    (b : GoStr) (hb : b = natChars ipv ++ fracChars u p ++ us ++ []) :
    parseDurLoop (b.length + 1) b 0 = some u ∧
      2 ≤ b.length ∧ ∃ c t, b = c :: t ∧ isDigitCh c = true := by
  obtain ⟨c, t, hct, hcd⟩ := natChars_head ipv
  have husl : 1 ≤ us.length := by
    cases us with
    | nil => exact absurd rfl husne
    | cons a b => simp
  have hlen : 2 ≤ b.length := by
    rw [hb, hct]
    simp only [List.length_append, List.length_cons, List.length_nil]
    omega
  refine ⟨?_, hlen, c, t ++ fracChars u p ++ us ++ [],
    by rw [hb, hct]; simp [List.cons_append], hcd⟩
  obtain ⟨L, hL⟩ : ∃ L, b.length = L + 1 := ⟨b.length - 1, by omega⟩
  rw [hL, hb]
  rw [parseDurLoop_numseg (L + 1) 0 ipv u p us unit hu hup hple husne hus []
    (Or.inl rfl) hipb (by omega)]
  rw [parseDurLoop_nil]
  congr 1
  omega

theorem parseDurLoop_intseg (fuel d v : Nat) (us : GoStr) (unit : Nat)
    (hu : unitVal us = some unit)
    (husne : us ≠ []) (hus : ∀ c ∈ us, (c = '.' || isDigitCh c) = false)
    (rest : GoStr)
    (hrest : rest = [] ∨ ∃ c t, rest = c :: t ∧ isDigitCh c = true)
    (hov : v ≤ 2 ^ 63 / unit) (hdw : d + v * unit ≤ 2 ^ 63) :
    parseDurLoop (fuel + 1) (natChars v ++ [] ++ us ++ rest) d =
      parseDurLoop fuel rest (d + v * unit) := by
  obtain ⟨c, t, hct, _⟩ := natChars_head v
  have hd : ∀ x ∈ c :: t, isDigitCh x = true := by rw [← hct]; exact natChars_digits v
  have hval : bigval 0 (c :: t) = v := by rw [← hct]; exact natChars_val v
  have hvle : v ≤ 2 ^ 63 := by
    have := Nat.div_le_self (2 ^ 63) unit
    omega
  rw [hct]
  exact parseDurLoop_seg fuel d c t hd v hval hvle [] 0 1 (Or.inl ⟨rfl, rfl, rfl⟩)
    us husne hus unit hu rest hrest hov (v * unit) (by simp) (by omega) hdw

theorem durBody_spec (u : Nat) (h1 : 1 ≤ u) (h2 : u ≤ 2 ^ 63) :
    parseDurLoop ((durBody u).length + 1) (durBody u) 0 = some u ∧
      2 ≤ (durBody u).length ∧ ∃ c t, durBody u = c :: t ∧ isDigitCh c = true := by
  by_cases hA : u < 10 ^ 3
  · exact durBody_seg1 u u 0 ['n', 's'] 1 (by decide) (by norm_num) (by omega)
      (by decide) (by decide) (by omega) (by simp [Nat.mod_one]) h2 (durBody u) (by
        unfold durBody
        rw [if_pos (by omega : u < 10 ^ 9), if_pos hA]
        have hfc : fracChars u 0 = [] := by unfold fracChars; simp [Nat.mod_one]
        rw [hfc]; simp)
  · by_cases hB : u < 10 ^ 6
    · exact durBody_seg1 u (u / 10 ^ 3) 3 ['µ', 's'] 1000 (by decide) (by norm_num)
        (by omega) (by decide) (by decide) (by omega) (by omega) h2 (durBody u) (by
          unfold durBody
          rw [if_pos (by omega : u < 10 ^ 9), if_neg hA, if_pos hB]
          simp)
    · by_cases hC : u < 10 ^ 9
      · exact durBody_seg1 u (u / 10 ^ 6) 6 ['m', 's'] (10 ^ 6) (by decide) rfl
          (by omega) (by decide) (by decide) (by omega) (by omega) h2 (durBody u) (by
            unfold durBody
            rw [if_pos hC, if_neg hA, if_neg hB]
            simp)
      · by_cases hm : u / 10 ^ 9 / 60 > 0
        · by_cases hh : u / 10 ^ 9 / 60 / 60 > 0
          · have hb : durBody u = natChars (u / 10 ^ 9 / 60 / 60) ++ [] ++ ['h'] ++
                (natChars (u / 10 ^ 9 / 60 % 60) ++ [] ++ ['m'] ++
                  (natChars (u / 10 ^ 9 % 60) ++ fracChars u 9 ++ ['s'] ++ [])) := by
              unfold durBody
              rw [if_neg hC]
              dsimp only
              rw [if_pos hm, if_pos hh]
              simp
            obtain ⟨ch, th, hch, hchd⟩ := natChars_head (u / 10 ^ 9 / 60 / 60)
            obtain ⟨cm, tm, hcm, hcmd⟩ := natChars_head (u / 10 ^ 9 / 60 % 60)
            obtain ⟨cs, ts, hcs, hcsd⟩ := natChars_head (u / 10 ^ 9 % 60)
            have hlen : 6 ≤ (durBody u).length := by
              rw [hb, hch, hcm, hcs]
              simp only [List.length_append, List.length_cons, List.length_nil]
              omega
            refine ⟨?_, by omega, ch, th ++ [] ++ ['h'] ++
              (natChars (u / 10 ^ 9 / 60 % 60) ++ [] ++ ['m'] ++
                (natChars (u / 10 ^ 9 % 60) ++ fracChars u 9 ++ ['s'] ++ [])),
              by rw [hb, hch]; simp [List.cons_append], hchd⟩
            obtain ⟨L, hL⟩ : ∃ L, (durBody u).length = L + 1 + 1 + 1 :=
              ⟨(durBody u).length - 3, by omega⟩
            rw [hL, hb]
            rw [parseDurLoop_intseg (L + 1 + 1 + 1) 0 (u / 10 ^ 9 / 60 / 60) ['h']
              (3600 * 10 ^ 9) (by decide) (by decide) (by decide)
              (natChars (u / 10 ^ 9 / 60 % 60) ++ [] ++ ['m'] ++
                (natChars (u / 10 ^ 9 % 60) ++ fracChars u 9 ++ ['s'] ++ []))
              (Or.inr ⟨cm, tm ++ [] ++ ['m'] ++
                (natChars (u / 10 ^ 9 % 60) ++ fracChars u 9 ++ ['s'] ++ []),
                by rw [hcm]; simp [List.cons_append], hcmd⟩)
              (by omega) (by omega)]
            rw [parseDurLoop_intseg (L + 1 + 1)
              (0 + u / 10 ^ 9 / 60 / 60 * (3600 * 10 ^ 9))
              (u / 10 ^ 9 / 60 % 60) ['m'] (60 * 10 ^ 9) (by decide) (by decide)
              (by decide)
              (natChars (u / 10 ^ 9 % 60) ++ fracChars u 9 ++ ['s'] ++ [])
              (Or.inr ⟨cs, ts ++ fracChars u 9 ++ ['s'] ++ [],
                by rw [hcs]; simp [List.cons_append], hcsd⟩)
              (by omega) (by omega)]
            rw [parseDurLoop_numseg (L + 1)
              (0 + u / 10 ^ 9 / 60 / 60 * (3600 * 10 ^ 9) +
                u / 10 ^ 9 / 60 % 60 * (60 * 10 ^ 9))
              (u / 10 ^ 9 % 60) u 9 ['s'] (10 ^ 9) (by decide) rfl (by omega)
              (by decide) (by decide) [] (Or.inl rfl) (by omega) (by omega)]
            rw [parseDurLoop_nil]
            congr 1
            omega
          · have hb : durBody u = natChars (u / 10 ^ 9 / 60 % 60) ++ [] ++ ['m'] ++
                (natChars (u / 10 ^ 9 % 60) ++ fracChars u 9 ++ ['s'] ++ []) := by
              unfold durBody
              rw [if_neg hC]
              dsimp only
              rw [if_pos hm, if_neg hh]
              simp
            obtain ⟨cm, tm, hcm, hcmd⟩ := natChars_head (u / 10 ^ 9 / 60 % 60)
            obtain ⟨cs, ts, hcs, hcsd⟩ := natChars_head (u / 10 ^ 9 % 60)
            have hlen : 4 ≤ (durBody u).length := by
              rw [hb, hcm, hcs]
              simp only [List.length_append, List.length_cons, List.length_nil]
              omega
            refine ⟨?_, by omega, cm, tm ++ [] ++ ['m'] ++
              (natChars (u / 10 ^ 9 % 60) ++ fracChars u 9 ++ ['s'] ++ []),
              by rw [hb, hcm]; simp [List.cons_append], hcmd⟩
            obtain ⟨L, hL⟩ : ∃ L, (durBody u).length = L + 1 + 1 :=
              ⟨(durBody u).length - 2, by omega⟩
            rw [hL, hb]
            rw [parseDurLoop_intseg (L + 1 + 1) 0 (u / 10 ^ 9 / 60 % 60) ['m']
              (60 * 10 ^ 9) (by decide) (by decide) (by decide)
              (natChars (u / 10 ^ 9 % 60) ++ fracChars u 9 ++ ['s'] ++ [])
              (Or.inr ⟨cs, ts ++ fracChars u 9 ++ ['s'] ++ [],
                by rw [hcs]; simp [List.cons_append], hcsd⟩)
              (by omega) (by omega)]
            rw [parseDurLoop_numseg (L + 1)
              (0 + u / 10 ^ 9 / 60 % 60 * (60 * 10 ^ 9))
              (u / 10 ^ 9 % 60) u 9 ['s'] (10 ^ 9) (by decide) rfl (by omega)
              (by decide) (by decide) [] (Or.inl rfl) (by omega) (by omega)]
            rw [parseDurLoop_nil]
            congr 1
            omega
        · exact durBody_seg1 u (u / 10 ^ 9 % 60) 9 ['s'] (10 ^ 9) (by decide) rfl
            (by omega) (by decide) (by decide) (by omega) (by omega) h2 (durBody u) (by
              unfold durBody
              rw [if_neg hC]
              dsimp only
              rw [if_neg hm]
              simp)

theorem goParseDuration_renderDuration (d : Int)
    (h1 : -(2 ^ 63) ≤ d) (h2 : d < 2 ^ 63) :
    goParseDuration (renderDuration d) = some d := by
  by_cases h0 : d = 0
  · rw [h0]; decide
  · have hu1 : 1 ≤ d.natAbs := by omega
    have hu2 : d.natAbs ≤ 2 ^ 63 := by omega
    obtain ⟨hparse, hlen, c, t, hct, hcd⟩ := durBody_spec d.natAbs hu1 hu2
    have hne0 : durBody d.natAbs ≠ ['0'] := by
      intro he
      rw [he] at hlen
      simp at hlen
    have hnenil : durBody d.natAbs ≠ [] := by
      intro he
      rw [he] at hlen
      simp at hlen
    by_cases hneg : d < 0
    · have hrd : renderDuration d = '-' :: durBody d.natAbs := by
        unfold renderDuration
        dsimp only
        rw [if_neg (by omega : ¬d.natAbs = 0), if_pos hneg]
      rw [hrd]
      unfold goParseDuration
      dsimp only
      rw [if_pos rfl]
      dsimp only
      rw [if_neg hne0, if_neg hnenil, hparse]
      dsimp only
      rw [if_pos rfl]
      rw [Int.ofNat_natAbs_of_nonpos (by omega), neg_neg]
    · have hrd : renderDuration d = durBody d.natAbs := by
        unfold renderDuration
        dsimp only
        rw [if_neg (by omega : ¬d.natAbs = 0), if_neg hneg]
      rw [hrd]
      unfold goParseDuration
      rw [hct] at hne0 hnenil hparse ⊢
      dsimp only
      rw [if_neg (digit_ne_sign c hcd).2.1, if_neg (digit_ne_sign c hcd).1]
      dsimp only
      rw [if_neg hne0, if_neg hnenil, hparse]
      dsimp only
      rw [if_neg (by decide : ¬(false = true))]
      rw [if_neg (by omega : ¬d.natAbs > 2 ^ 63 - 1)]
      rw [Int.natAbs_of_nonneg (by omega)]

/-- The cell round-trip law over the embedded variants: for every typed
value cell variant of the embedding (bool, int, int64, uint, uint64,
string, duration) and every value in the variant's representable domain,
the variant's `Set` on the variant's own `String()` rendering restores
exactly the same value and reports no error.  The round trip is exact
even for the duration variant, over the whole `int64` range of
`Duration.String()`/`ParseDuration`.  The library's remaining variant,
`float64Value`, is IEEE-754 arithmetic (`strconv.ParseFloat` and `%v`
shortest formatting) and is outside this shallow embedding, so nothing
is stated about it here. -/
theorem cellSet_cellString_roundtrip (v : CellValue) (h : v.InRange) :
    cellSet v (cellString v) = (v, none) := by
  cases v with
  | boolV b => cases b <;> decide
  | intV i =>
    obtain ⟨hl, hr⟩ := h
    simp [cellSet, cellString, parseInt0_intChars i hl hr]
  | int64V i =>
    obtain ⟨hl, hr⟩ := h
    simp [cellSet, cellString, parseInt0_intChars i hl hr]
  | uintV n =>
    have hn : n ≤ 2 ^ 64 - 1 := by
      have := h
      simp only [CellValue.InRange] at this
      omega
    simp [cellSet, cellString, parseUint0_natChars n hn]
  | uint64V n =>
    have hn : n ≤ 2 ^ 64 - 1 := by
      have := h
      simp only [CellValue.InRange] at this
      omega
    simp [cellSet, cellString, parseUint0_natChars n hn]
  | stringV s => rfl
  | durationV d =>
    obtain ⟨hl, hr⟩ := h
    simp [cellSet, cellString, goParseDuration_renderDuration d hl hr]

/-- A closed instance of the round-trip law at a duration that renders
with minute and second parts (`1m30s`). -/
theorem cellSet_cellString_roundtrip_inst :
    CellValue.InRange (.durationV 90000000000) ∧
      cellSet (.durationV 90000000000) (cellString (.durationV 90000000000)) =
        (.durationV 90000000000, none) :=
  ⟨⟨by decide, by decide⟩,
    cellSet_cellString_roundtrip (.durationV 90000000000) ⟨by decide, by decide⟩⟩
